import Mathlib

/-!
Verification model of `summarize_journal.py`.

Modeling conventions (shallow embedding of the Python source):

* Text documents that the program parses line-by-line (the org journal and the
  markdown summary output) are modeled as `List String`, one element per
  newline-terminated line; the file on disk is `String.intercalate "\n" lines`
  followed by a final newline, and a missing or unreadable file is the empty
  list (the Python code catches the read error and behaves as for no content).
* Python `str.strip()` is `pyStrip` (drop ASCII whitespace at both ends),
  `os.path.basename` is `basename`, `os.path.splitext(...)[0]` is `pyStem`.
* The regular expressions of the source are embedded as recursive scanners
  over the list of lines, reproducing the semantics of `re.finditer` with
  `re.MULTILINE | re.DOTALL` on such documents:
  a block opens at a line matched by the block marker; its body starts at the
  next line and runs up to (exclusive) the first later line that starts with
  the cut token (`"** "` for the org file, `"# "` for the summary file) —
  except that the line immediately after the marker always belongs to the
  body, because the lookahead `(?=\n^<cut>)` of the source regex needs a
  preceding newline that was already consumed by the marker match.
  The org marker's lazy `re.DOTALL` date capture `<(.*?)>\n` crosses
  newlines: from a line opening with `** Journal Entry <`, the date runs to
  the first line end that closes with `>`, swallowing whole intermediate
  lines; when no later line end closes the date, the match fails at that
  opening and scanning resumes with the following lines.
* The Ollama HTTP exchange is a `ServiceOutcome` parameter: the four caught
  exception classes become the four failure constructors, a well-formed
  response becomes `ok` carrying the optional `response` JSON field.
* Console printing and the `input()` confirmation are glue; the confirmation
  answer and the reachability-probe result are Booleans of the `World`.
-/

namespace SJ

/-- ASCII whitespace as stripped by Python `str.strip()` (the characters
`" \t\n\r\v\f"`; further Unicode whitespace is not modeled). -/
def isPySpace (c : Char) : Bool :=
  c = ' ' || c = '\t' || c = '\n' || c = '\r' || c = '\x0b' || c = '\x0c'

/-- Drop leading Python whitespace. -/
def stripLeftChars (l : List Char) : List Char := l.dropWhile isPySpace

/-- Drop trailing Python whitespace. -/
def stripRightChars (l : List Char) : List Char :=
  (l.reverse.dropWhile isPySpace).reverse

/-- Python `str.strip()` on a character list. -/
def stripChars (l : List Char) : List Char := stripRightChars (stripLeftChars l)

/-- Python `str.strip()`. -/
def pyStrip (s : String) : String := ⟨stripChars s.data⟩

/-- Split a character list at newline characters (Python `str.split("\n")`
shape; used to relate a raw string to the line model). -/
def splitNl : List Char → List (List Char)
  | [] => [[]]
  | c :: cs =>
    if c = '\n' then [] :: splitNl cs
    else
      match splitNl cs with
      | [] => [[c]]
      | t :: ts => (c :: t) :: ts

/-- The lines of a string (no element contains a newline). -/
def splitLines (s : String) : List String := (splitNl s.data).map fun l => ⟨l⟩

/-- Join lines with newlines: the text the joined lines denote, without the
final newline (matches what the block scanners capture as a body). -/
def joinLines (ls : List String) : String :=
  ⟨List.intercalate ['\n'] (ls.map String.data)⟩

/-- Python `os.path.basename`: the part after the last `/`. -/
def basename (p : String) : String :=
  ⟨(p.data.reverse.takeWhile fun c => c ≠ '/').reverse⟩

/-- Python `os.path.splitext(b)[0]` for a path `b` without separators: cut at
the last dot, unless every character before that dot is itself a dot
(leading dots never open an extension). -/
def stemChars (l : List Char) : List Char :=
  match l.reverse.dropWhile (fun c => c ≠ '.') with
  | [] => l
  | _ :: before => if before.any (fun c => c ≠ '.') then before.reverse else l

/-- Python `os.path.splitext(b)[0]`. -/
def pyStem (s : String) : String := ⟨stemChars s.data⟩

/-- Text before the first `]]` of the list, if `]]` occurs
(the non-greedy `(.*?)` before `\]\]` of `re.search(r'\[\[(.*?)\]\]', …)`). -/
def grabClose : List Char → Option (List Char)
  | [] => none
  | c :: cs =>
    if [']', ']'].isPrefixOf (c :: cs) then some []
    else (grabClose cs).map fun t => c :: t

/-- Leftmost `[[…]]` group of the list: at the first `[[`, capture up to the
first later `]]`.  If the earliest `[[` has no closing `]]` after it, no later
one has either, so the search fails. -/
def grabBrackets : List Char → Option (List Char)
  | [] => none
  | c :: cs =>
    if ['[', '['].isPrefixOf (c :: cs) then grabClose (cs.drop 1)
    else grabBrackets cs

/-- `re.search(r'\[\[(.*?)\]\]', heading)` followed by `.strip()` on the
captured group, as the source applies to a summary heading. -/
def extractBrackets (s : String) : Option String :=
  (grabBrackets s.data).map fun g => pyStrip ⟨g⟩

/-! ### The journal entry record -/

/-- `JournalEntry` of the source: optional heading (org date), optional
filename (markdown identifier), and the entry body. -/
structure JournalEntry where
  heading : Option String
  filename : Option String
  content : String
deriving DecidableEq, Repr

/-! ### Block scanners (the two `re.finditer` loops) -/

/-- One fuel-indexed block scanner for both document formats, following the
shared shape of the source regexes
`^<marker>\n(.*?)(?=\n^<cut>|\Z)` under `re.MULTILINE | re.DOTALL`:
`marker` recognizes a block-opening line and yields its captured group,
`cut` recognizes a line that ends the previous body.  The first line after a
marker always belongs to the body (see the file comment); scanning resumes at
the cutting line.  The fuel only makes the recursion structural; it is always
called with at least the length of the list. -/
def findBlocksFuel (marker : String → Option String) (cut : String → Bool) :
    Nat → List String → List (String × List String)
  | 0, _ => []
  | _ + 1, [] => []
  | f + 1, l :: ls =>
    match marker l with
    | none => findBlocksFuel marker cut f ls
    | some g =>
      match ls with
      | [] => [(g, [])]
      | b :: rest =>
        (g, b :: rest.takeWhile fun x => !cut x) ::
          findBlocksFuel marker cut f (rest.dropWhile fun x => !cut x)

/-- The block scanner on a document. -/
def findBlocks (marker : String → Option String) (cut : String → Bool)
    (lines : List String) : List (String × List String) :=
  findBlocksFuel marker cut lines.length lines

/-- The fixed org marker text `** Journal Entry <` of the source regex. -/
def orgMarkerPre : List Char := ("** Journal Entry <").data

/-- A line that can open an org marker match: it begins with the fixed text
`** Journal Entry <` (the date capture may still fail further on). -/
def orgStarts (l : String) : Bool := orgMarkerPre.isPrefixOf l.data

/-- The remainder of a marker-opening line after the fixed 18-character
marker text. -/
def orgRest (l : String) : String := ⟨l.data.drop orgMarkerPre.length⟩

/-- Does this line end with `>`?  Under the trailing-newline convention this
is exactly where the source's `>\n` can match. -/
def lineEndsGt (l : String) : Bool := l.data.getLast? == some '>'

/-- The lazy `re.DOTALL` date capture `<(.*?)>\n` of the org marker:
starting with the remainder of the opening line, the date runs to the first
line end that closes with `>`, swallowing whole intermediate lines; yields
the captured date and the lines after the closing line, or `none` when no
later line end closes the date (the match fails at this opening). -/
def orgDateCapture : List String → String → Option (String × List String)
  | ls, first =>
    if lineEndsGt first then some (⟨first.data.dropLast⟩, ls)
    else
      match ls with
      | [] => none
      | l :: ls' => (orgDateCapture ls' l).map fun r => (first ++ "\n" ++ r.1, r.2)

/-- A line matching the single-line reading of the org marker (it opens
with the fixed text and closes its date bracket on the same line).  This is
the marker as claim C6's words describe it; the source regex additionally
admits the cross-line captures of `orgDateCapture`. -/
def orgMarker (l : String) : Option String :=
  if orgMarkerPre.isPrefixOf l.data && l.data.getLast? == some '>' &&
      decide (orgMarkerPre.length < l.data.length) then
    some ⟨(l.data.drop orgMarkerPre.length).dropLast⟩
  else none

/-- A line matching the org lookahead `\n^\*\* `: starts with `** `. -/
def orgCut (l : String) : Bool := ['*', '*', ' '].isPrefixOf l.data

/-- A line matching `^# (.*?)\n`: starts with `# `; yields the rest.  (The
lazy capture before `\n` never crosses a line, so this marker is always
single-line.) -/
def mdMarker (l : String) : Option String :=
  if ['#', ' '].isPrefixOf l.data then some ⟨l.data.drop 2⟩ else none

/-- A line matching the summary lookahead `\n^# `: starts with `# `. -/
def mdCut (l : String) : Bool := ['#', ' '].isPrefixOf l.data

/-- The block scan of the source org regex: at a line opening with
`** Journal Entry <`, capture the (possibly line-crossing) date; when the
capture fails, scanning resumes with the following lines; when it succeeds,
the body is the line right after the date's closing line (always) followed
by the lines up to the first later `** `-opening line, where scanning
resumes.  Fuel-indexed to keep the recursion structural; always called with
the length of the list. -/
def orgBlocksFuel : Nat → List String → List (String × List String)
  | 0, _ => []
  | _ + 1, [] => []
  | f + 1, l :: ls =>
    if orgStarts l then
      match orgDateCapture ls (orgRest l) with
      | none => orgBlocksFuel f ls
      | some (date, rest) =>
        match rest with
        | [] => [(date, [])]
        | b :: rest' =>
          (date, b :: rest'.takeWhile fun x => !orgCut x) ::
            orgBlocksFuel f (rest'.dropWhile fun x => !orgCut x)
    else orgBlocksFuel f ls

/-- The org block scanner on a document. -/
def orgBlocks (lines : List String) : List (String × List String) :=
  orgBlocksFuel lines.length lines

/-- `parse_org_journal` of the source on the lines of the org document:
block per marker match, heading is the stripped date, blocks whose stripped
body is empty are dropped, `filename` is never set. -/
def parse_org_journal (lines : List String) : List JournalEntry :=
  (orgBlocks lines).filterMap fun b =>
    let c := pyStrip (joinLines b.2)
    if c = "" then none else some ⟨some (pyStrip b.1), none, c⟩

/-- `parse_journal_summary_file` of the source on the lines of the summary
document: block per `# ` heading, stripped heading kept, `[[…]]` identifier
extracted from the heading when present, empty-bodied blocks dropped. -/
def parse_journal_summary_file (lines : List String) : List JournalEntry :=
  (findBlocks mdMarker mdCut lines).filterMap fun b =>
    let h := pyStrip b.1
    let c := pyStrip (joinLines b.2)
    if c = "" then none else some ⟨some h, extractBrackets h, c⟩

/-- `append_summary_to_markdown` of the source as a document transform: the
record `# <heading>\n\n<summary>\n\n` appended to the output document. -/
def append_summary_to_markdown (doc : List String) (heading summary : String) :
    List String :=
  doc ++ ["# " ++ heading, ""] ++ splitLines summary ++ [""]

/-- The completion set of `main`:
`{entry['filename'] + '.md' for entry in existing_summaries if entry['filename']}`
(as a list, used only through membership).  The guard is Python truthiness,
so an empty filename — heading `[[]]` — contributes nothing. -/
def completionSet (doc : List String) : List String :=
  (parse_journal_summary_file doc).filterMap fun e =>
    match e.filename with
    | some f => if f = "" then none else some (f ++ ".md")
    | none => none

/-! ### The summarization client -/

/-- The placeholder `{entry_text}` of the prompt template. -/
def placeholderChars : List Char := ("\x7bentry_text\x7d").data

/-- Substitute the entry text for each `{entry_text}` occurrence of the
template (Python `prompt_template.format(entry_text=text)` for a template
whose only replacement fields are this placeholder; fuel-indexed to keep the
recursion structural). -/
def substFuel (v : List Char) : Nat → List Char → List Char
  | 0, l => l
  | _ + 1, [] => []
  | f + 1, c :: cs =>
    if placeholderChars.isPrefixOf (c :: cs) then
      v ++ substFuel v f ((c :: cs).drop placeholderChars.length)
    else c :: substFuel v f cs

/-- `prompt_template.format(entry_text=text)`. -/
def buildPrompt (template text : String) : String :=
  ⟨substFuel text.data template.data.length template.data⟩

/-- Drop everything through the first `</think>`, if one occurs. -/
def dropThroughClose : List Char → Option (List Char)
  | [] => none
  | c :: cs =>
    if ("</think>").data.isPrefixOf (c :: cs) then some ((c :: cs).drop 8)
    else dropThroughClose cs

/-- `re.sub(r'<think>.*?</think>', '', s, flags=re.DOTALL)`: scan left to
right; at an occurrence of `<think>` that has a later `</think>`, delete
through that first `</think>` and continue after it; otherwise keep the
character.  Fuel-indexed to keep the recursion structural; called with the
length of the list. -/
def removeThinkFuel : Nat → List Char → List Char
  | 0, l => l
  | _ + 1, [] => []
  | f + 1, c :: cs =>
    if ("<think>").data.isPrefixOf (c :: cs) then
      match dropThroughClose ((c :: cs).drop 7) with
      | some rest => removeThinkFuel f rest
      | none => c :: removeThinkFuel f cs
    else c :: removeThinkFuel f cs

/-- The reasoning-tag removal pass of the client. -/
def removeThink (s : String) : String :=
  ⟨removeThinkFuel s.data.length s.data⟩

/-- The response cleaning of `summarize_with_ollama`:
`response_data.get('response', '').strip()` then the `<think>` removal then
the final `.strip()`. -/
def cleanSummary (raw : String) : String := pyStrip (removeThink (pyStrip raw))

/-- Outcome of the `requests.post` exchange with the Ollama server, as the
source distinguishes them: the four caught exception classes
(`ConnectionError`, `Timeout`, any other `RequestException` — including the
HTTP errors surfaced by `raise_for_status` —, `json.JSONDecodeError`) and a
well-formed JSON response carrying the optional `response` field. -/
inductive ServiceOutcome where
  | connectionError
  | timeout
  | requestError
  | jsonError
  | ok (response : Option String)
deriving DecidableEq, Repr

/-- `summarize_with_ollama` of the source: build the prompt, issue the
request (`service` maps the prompt to the transport outcome), and either
clean and return the generated text or collapse the failure to `none`. -/
def summarize_with_ollama (service : String → ServiceOutcome)
    (text model url template : String) : Option String :=
  let _payload := (model, buildPrompt template text, url ++ "/api/generate")
  match service (buildPrompt template text) with
  | .ok r => some (cleanSummary (r.getD ""))
  | .connectionError => none
  | .timeout => none
  | .requestError => none
  | .jsonError => none

/-! ### The batch runner -/

/-- The heading chosen for an entry by the processing loop of `main`:
`f'[[{entry["filename"]}]]' if entry['filename'] else entry['heading']`
(Python truthiness: an empty filename falls back to the heading). -/
def entryHeading (e : JournalEntry) : Option String :=
  match e.filename with
  | some f => if f = "" then e.heading else some ("[[" ++ f ++ "]]")
  | none => e.heading

/-- How `f'# {heading}'` renders the heading value (`None` prints as
`"None"`). -/
def renderHeading : Option String → String
  | some h => h
  | none => "None"

/-- Result of the processing loop: the records handed to the output writer
(in order), the processed count, the entry texts sent to the client (in
order), and whether the loop aborted on a failure. -/
structure LoopOut where
  records : List (String × String)
  processed : Nat
  calls : List String
  aborted : Bool
deriving DecidableEq, Repr

/-- The processing loop of `main`: skip entries with empty content; call the
client on the rest; a truthy summary is appended and counted; a falsy one
(`None` or the empty string) aborts the whole remaining batch. -/
def runLoop (summarize : String → Option String) :
    List JournalEntry → LoopOut
  | [] => ⟨[], 0, [], false⟩
  | e :: es =>
    if e.content = "" then runLoop summarize es
    else
      match summarize e.content with
      | none => ⟨[], 0, [e.content], true⟩
      | some s =>
        if s = "" then ⟨[], 0, [e.content], true⟩
        else
          let r := runLoop summarize es
          ⟨(renderHeading (entryHeading e), s) :: r.records, r.processed + 1,
            e.content :: r.calls, r.aborted⟩

/-! ### `main` -/

/-- The command-line selections `main` consumes (model, url and prompt are
passed separately; the defaults of the source are irrelevant here). -/
structure Config where
  inputJournalOrg : Option String
  inputEntryMd : Option (List String)
  outputMd : String
deriving DecidableEq, Repr

/-- Python truthiness of an optional string argument. -/
def pyTruthyStr : Option String → Bool
  | none => false
  | some s => !(s == "")

/-- Python truthiness of an optional path-list argument. -/
def pyTruthyList : Option (List String) → Bool
  | none => false
  | some l => !(l == [])

/-- The environment of a run: the readable per-entry files, the org journal
files (as line lists), the current output document (missing file ≡ `[]`),
the operator's confirmation answer, and the reachability-probe result. -/
structure World where
  files : String → Option String
  orgDoc : String → Option (List String)
  outDoc : List String
  confirmYes : Bool
  serviceUp : Bool

/-- How a run of `main` terminated. -/
inductive RunStatus where
  | configError
  | nothingToDo
  | userDeclined
  | serviceDown
  | abortedFailure
  | completed
deriving DecidableEq, Repr

/-- Observable outcome of a run of `main`: final status, the output document
after the run, the processed count and batch size, the texts sent to the
client, and the paths read (the output document first, then the input
files). -/
structure Outcome where
  status : RunStatus
  doc : List String
  processed : Nat
  total : Nat
  calls : List String
  ioReads : List String
deriving Repr

/-- The per-file filter of `main`:
`[p for p in args.input_entry_md if os.path.basename(p) not in files_already_summarized]`. -/
def selectFiles (paths : List String) (done : List String) : List String :=
  paths.filter fun p => !done.contains (basename p)

/-- The per-file reading loop of `main`: each readable path becomes an entry
with the extension-stripped base name as filename and the raw file text as
content; unreadable paths are skipped. -/
def readEntries (files : String → Option String) (paths : List String) :
    List JournalEntry :=
  paths.filterMap fun p =>
    (files p).map fun c => ⟨none, some (pyStem (basename p)), c⟩

/-- Fold the records of a run into the output document. -/
def appendAll (doc : List String) (records : List (String × String)) :
    List String :=
  records.foldl (fun d r => append_summary_to_markdown d r.1 r.2) doc

/-- `main` of the source, in the order of the source: the mutual-exclusivity
check before anything else; then the completion set is computed once from
the output document; per-file entries are filtered by base name and read
(org entries are parsed unfiltered); an empty batch ends the run; the
confirmation and the reachability probe gate the loop; the loop's records
are appended to the output document. -/
def mainRun (w : World) (service : String → ServiceOutcome) (cfg : Config)
    (model url template : String) : Outcome :=
  if pyTruthyStr cfg.inputJournalOrg && pyTruthyList cfg.inputEntryMd then
    ⟨.configError, w.outDoc, 0, 0, [], []⟩
  else
    let done := completionSet w.outDoc
    let io0 := [cfg.outputMd]
    let ioEnt : List String × List JournalEntry :=
      if pyTruthyList cfg.inputEntryMd then
        let sel := selectFiles (cfg.inputEntryMd.getD []) done
        (sel, readEntries w.files sel)
      else if pyTruthyStr cfg.inputJournalOrg then
        let p := cfg.inputJournalOrg.getD ""
        ([p], parse_org_journal ((w.orgDoc p).getD []))
      else ([], [])
    let entries := ioEnt.2
    let io := io0 ++ ioEnt.1
    if entries = [] then ⟨.nothingToDo, w.outDoc, 0, 0, [], io⟩
    else if !w.confirmYes then ⟨.userDeclined, w.outDoc, 0, entries.length, [], io⟩
    else if !w.serviceUp then ⟨.serviceDown, w.outDoc, 0, entries.length, [], io⟩
    else
      let summ := fun c => summarize_with_ollama service c model url template
      let r := runLoop summ entries
      ⟨if r.aborted then .abortedFailure else .completed,
        appendAll w.outDoc r.records, r.processed, entries.length, r.calls, io⟩

/-! ### Spec-side definitions (for comparison with the source model) -/

/-- Modeled from the claim's words (C6): each entry's body consists of
exactly the text from the line after its `** Journal Entry <DATE>` marker
line up to just before the next such marker line or the end of the document;
markers are recognized only at the start of a line. -/
def claimBlocksFuelC6 : Nat → List String → List (String × List String)
  | 0, _ => []
  | _ + 1, [] => []
  | f + 1, l :: ls =>
    match orgMarker l with
    | none => claimBlocksFuelC6 f ls
    | some g =>
      (g, ls.takeWhile fun x => (orgMarker x).isNone) ::
        claimBlocksFuelC6 f (ls.dropWhile fun x => (orgMarker x).isNone)

/-- The outline parser as claim C6 describes it (same per-block filtering as
the source: strip the body, drop empty blocks, strip the date). -/
def parse_org_asClaimedC6 (lines : List String) : List JournalEntry :=
  (claimBlocksFuelC6 lines.length lines).filterMap fun b =>
    let c := pyStrip (joinLines b.2)
    if c = "" then none else some ⟨some (pyStrip b.1), none, c⟩

/-- Modeled from the amended claim (C6): a block opens at a line beginning
`** Journal Entry <`; its date runs to the first line end closing with `>`
(possibly spanning whole lines, which then belong to the date, not the
body); an opening whose date never closes starts no block.  The body is the
line right after the date's closing line (always, even if that line itself
opens with `** `) followed by the subsequent lines up to just before the
earliest later line beginning with `** ` — any org heading, not only
journal-entry markers — or the end of the document. -/
def amendedBlocksFuelC6 : Nat → List String → List (String × List String)
  | 0, _ => []
  | _ + 1, [] => []
  | f + 1, l :: ls =>
    if orgStarts l then
      match orgDateCapture ls (orgRest l) with
      | none => amendedBlocksFuelC6 f ls
      | some (date, rest) =>
        (date, rest.take 1 ++ (rest.drop 1).takeWhile fun x => !orgCut x) ::
          amendedBlocksFuelC6 f ((rest.drop 1).dropWhile fun x => !orgCut x)
    else amendedBlocksFuelC6 f ls

/-- The outline parser as the amended claim C6 describes it. -/
def parse_org_amendedC6 (lines : List String) : List JournalEntry :=
  (amendedBlocksFuelC6 lines.length lines).filterMap fun b =>
    let c := pyStrip (joinLines b.2)
    if c = "" then none else some ⟨some (pyStrip b.1), none, c⟩

/-! ### Well-formedness predicates used by the amended claims -/

/-- A summary text that round-trips through the output document: it strips
to something non-empty and none of its lines opens a new `# ` block. -/
def goodSummary (s : String) : Bool :=
  !(pyStrip s == "") && (splitLines s).all fun l => !mdCut l

/-- Does `pat` occur as a contiguous run inside `l`? -/
def hasRun (pat : List Char) : List Char → Bool
  | [] => pat.isPrefixOf []
  | c :: cs => pat.isPrefixOf (c :: cs) || hasRun pat cs

/-- A filename that survives the `[[…]]` round trip: single-line, invariant
under stripping, and it does not close the brackets early (no `]]` inside,
and it does not end in `]`). -/
def goodName (f : String) : Bool :=
  !(f.data.contains '\n') && (pyStrip f == f) &&
    !(hasRun [']', ']'] (f.data ++ [']']))

/-- The last line of the output document does not open a `# ` block, so an
appended record's heading line is recognized on re-parsing (an empty
document qualifies). -/
def lastLineOk (doc : List String) : Bool :=
  match doc.getLast? with
  | none => true
  | some l => !mdCut l

/-- A per-file input path on which the batch behaves as the idempotence
claim expects: the base name is `<stem>.md` for a round-trip-safe stem, the
file is readable with truthy content, and the client yields a truthy summary
that survives the output round trip. -/
def inputOk (files : String → Option String) (summarize : String → Option String)
    (p : String) : Bool :=
  (pyStem (basename p) ++ ".md" == basename p) && goodName (pyStem (basename p)) &&
    match files p with
    | none => false
    | some c =>
      !(c == "") &&
        match summarize c with
        | none => false
        | some s => !(s == "") && goodSummary s

/-- Wrap per-file records `(stem, summary)` the way the processing loop
renders their headings. -/
def wrapRecords (l : List (String × String)) : List (String × String) :=
  l.map fun r => ("[[" ++ r.1 ++ "]]", r.2)

/-- An org marker line carrying the date `d`. -/
def orgMarkerLine (d : String) : String := "** Journal Entry <" ++ d ++ ">"

/-- An org block: its marker line followed by its body lines. -/
def orgBlock (d : String) (body : List String) : List String :=
  orgMarkerLine d :: body

/-! ### Concrete instances used by witnesses and counterexamples -/

/-- A small file system: `a.txt` and `a.md` exist with content `hello`. -/
def exFiles : String → Option String := fun p =>
  if p == "a.txt" then some "hello"
  else if p == "a.md" then some "hello"
  else none

/-- No org journals on disk. -/
def exOrg : String → Option (List String) := fun _ => none

/-- A service that always generates the same summary. -/
def exService : String → ServiceOutcome := fun _ => .ok (some "A fine day.")

/-- A world with an empty output document, a confirming operator and a
reachable service. -/
def exWorld : World := ⟨exFiles, exOrg, [], true, true⟩

/-! ### Scanner lemmas -/

theorem dropWhile_length_le {α} (p : α → Bool) (l : List α) :
    (l.dropWhile p).length ≤ l.length :=
  (List.dropWhile_suffix p).sublist.length_le

theorem findBlocksFuel_cons_none {m : String → Option String} {c : String → Bool}
    {l : String} (h : m l = none) (f : Nat) (ls : List String) :
    findBlocksFuel m c (f + 1) (l :: ls) = findBlocksFuel m c f ls := by
  simp [findBlocksFuel, h]

theorem findBlocksFuel_single {m : String → Option String} {c : String → Bool}
    {l g : String} (h : m l = some g) (f : Nat) :
    findBlocksFuel m c (f + 1) [l] = [(g, [])] := by
  simp [findBlocksFuel, h]

theorem findBlocksFuel_cons_cons {m : String → Option String} {c : String → Bool}
    {l g : String} (h : m l = some g) (f : Nat) (b : String) (rest : List String) :
    findBlocksFuel m c (f + 1) (l :: b :: rest) =
      (g, b :: rest.takeWhile fun x => !c x) ::
        findBlocksFuel m c f (rest.dropWhile fun x => !c x) := by
  simp [findBlocksFuel, h]

theorem findBlocksFuel_congr (m : String → Option String) (c : String → Bool) :
    ∀ f₁ f₂ l, l.length ≤ f₁ → l.length ≤ f₂ →
      findBlocksFuel m c f₁ l = findBlocksFuel m c f₂ l := by
  intro f₁
  induction f₁ with
  | zero =>
    intro f₂ l h1 _
    have hl : l = [] := List.eq_nil_of_length_eq_zero (Nat.le_zero.mp h1)
    subst hl
    cases f₂ <;> rfl
  | succ f ih =>
    intro f₂ l h1 h2
    cases l with
    | nil => cases f₂ <;> rfl
    | cons x xs =>
      cases f₂ with
      | zero => simp at h2
      | succ g =>
        simp only [List.length_cons, Nat.succ_le_succ_iff] at h1 h2
        cases hm : m x with
        | none =>
          rw [findBlocksFuel_cons_none hm, findBlocksFuel_cons_none hm]
          exact ih g xs h1 h2
        | some gg =>
          cases xs with
          | nil => rw [findBlocksFuel_single hm, findBlocksFuel_single hm]
          | cons b rest =>
            rw [findBlocksFuel_cons_cons hm, findBlocksFuel_cons_cons hm]
            have hd : (rest.dropWhile fun x => !c x).length ≤ rest.length :=
              dropWhile_length_le _ rest
            simp only [List.length_cons] at h1 h2
            have hb1 : (rest.dropWhile fun x => !c x).length ≤ f := by omega
            have hb2 : (rest.dropWhile fun x => !c x).length ≤ g := by omega
            rw [ih g _ hb1 hb2]

theorem findBlocks_nil (m : String → Option String) (c : String → Bool) :
    findBlocks m c [] = [] := rfl

theorem findBlocks_cons_none {m : String → Option String} {c : String → Bool}
    {l : String} (h : m l = none) (ls : List String) :
    findBlocks m c (l :: ls) = findBlocks m c ls := by
  show findBlocksFuel m c (ls.length + 1) (l :: ls) = _
  rw [findBlocksFuel_cons_none h]
  rfl

theorem findBlocks_single {m : String → Option String} {c : String → Bool}
    {l : String} {g : String} (h : m l = some g) :
    findBlocks m c [l] = [(g, [])] := by
  show findBlocksFuel m c 1 [l] = _
  rw [findBlocksFuel_single h]

theorem findBlocks_cons_cons {m : String → Option String} {c : String → Bool}
    {l : String} {g : String} (h : m l = some g) (b : String) (rest : List String) :
    findBlocks m c (l :: b :: rest) =
      (g, b :: rest.takeWhile fun x => !c x) ::
        findBlocks m c (rest.dropWhile fun x => !c x) := by
  show findBlocksFuel m c (rest.length + 2) (l :: b :: rest) = _
  rw [findBlocksFuel_cons_cons h]
  congr 1
  exact findBlocksFuel_congr m c (rest.length + 1)
    (rest.dropWhile fun x => !c x).length _
    (le_trans (dropWhile_length_le _ rest) (Nat.le_succ _)) le_rfl

theorem takeWhile_append_of_neg {α} (p : α → Bool) :
    ∀ (xs ys : List α), ¬(∀ x ∈ xs, p x = true) →
      (xs ++ ys).takeWhile p = xs.takeWhile p := by
  intro xs
  induction xs with
  | nil => intro ys h; exact absurd (by intro x hx; cases hx) h
  | cons x xs ih =>
    intro ys h
    cases hx : p x with
    | true =>
      have h' : ¬(∀ z ∈ xs, p z = true) := by
        intro hall
        exact h (by
          intro z hz
          rcases List.mem_cons.mp hz with hz | hz
          · rw [hz]; exact hx
          · exact hall z hz)
      simp [List.takeWhile_cons, hx, ih ys h']
    | false => simp [List.takeWhile_cons, hx]

theorem dropWhile_append_of_neg {α} (p : α → Bool) :
    ∀ (xs ys : List α), ¬(∀ x ∈ xs, p x = true) →
      (xs ++ ys).dropWhile p = xs.dropWhile p ++ ys := by
  intro xs
  induction xs with
  | nil => intro ys h; exact absurd (by intro x hx; cases hx) h
  | cons x xs ih =>
    intro ys h
    cases hx : p x with
    | true =>
      have h' : ¬(∀ z ∈ xs, p z = true) := by
        intro hall
        exact h (by
          intro z hz
          rcases List.mem_cons.mp hz with hz | hz
          · rw [hz]; exact hx
          · exact hall z hz)
      simp [List.dropWhile_cons, hx, ih ys h']
    | false => simp [List.dropWhile_cons, hx]

theorem getLast?_of_suffix {α} {s l : List α} (h : s <:+ l) (hs : s ≠ []) :
    s.getLast? = l.getLast? := by
  obtain ⟨t, ht⟩ := h
  rw [← ht, List.getLast?_append_of_ne_nil t hs]

/-- Scanning a document extended past a cutting line splits at that line:
the blocks of `ls ++ hl :: rest` are the blocks of `ls` followed by the
blocks of `hl :: rest`, provided `hl` is a cutting line, markers are cutting
lines, and the final line of `ls` (if any) is not a cutting line. -/
theorem findBlocks_append (m : String → Option String) (c : String → Bool)
    (hmc : ∀ x g, m x = some g → c x = true) {hl : String} (hc : c hl = true)
    (rest : List String) :
    ∀ n ls, ls.length ≤ n → (∀ l, ls.getLast? = some l → c l = false) →
      findBlocks m c (ls ++ hl :: rest) =
        findBlocks m c ls ++ findBlocks m c (hl :: rest) := by
  intro n
  induction n with
  | zero =>
    intro ls h1 _
    have hls : ls = [] := List.eq_nil_of_length_eq_zero (Nat.le_zero.mp h1)
    subst hls
    simp [findBlocks_nil]
  | succ n ih =>
    intro ls hlen hlast
    cases ls with
    | nil => simp [findBlocks_nil]
    | cons l ls' =>
      simp only [List.length_cons, Nat.succ_le_succ_iff] at hlen
      cases hm : m l with
      | none =>
        rw [List.cons_append, findBlocks_cons_none hm, findBlocks_cons_none hm]
        cases ls' with
        | nil => simp [findBlocks_nil]
        | cons y ys =>
          exact ih (y :: ys) hlen (by
            intro z hz
            exact hlast z (by rw [List.getLast?_cons_cons]; exact hz))
      | some g =>
        cases ls' with
        | nil =>
          exfalso
          have hf : c l = false := hlast l rfl
          rw [hmc l g hm] at hf
          exact Bool.noConfusion hf
        | cons b tail =>
          rw [List.cons_append, List.cons_append, findBlocks_cons_cons hm,
            findBlocks_cons_cons hm]
          have hlentail : tail.length ≤ n := by
            have := hlen
            simp only [List.length_cons] at this
            omega
          by_cases hall : ∀ x ∈ tail, (!c x) = true
          · have ht1 : (tail ++ hl :: rest).takeWhile (fun x => !c x) = tail := by
              rw [List.takeWhile_append_of_pos hall]
              simp [List.takeWhile_cons, hc]
            have hd1 : (tail ++ hl :: rest).dropWhile (fun x => !c x) = hl :: rest := by
              rw [List.dropWhile_append_of_pos hall]
              simp [List.dropWhile_cons, hc]
            have ht2 : tail.takeWhile (fun x => !c x) = tail :=
              List.takeWhile_eq_self_iff.mpr hall
            have hd2 : tail.dropWhile (fun x => !c x) = [] :=
              List.dropWhile_eq_nil_iff.mpr hall
            rw [ht1, hd1, ht2, hd2, findBlocks_nil]
            simp
          · have htail_ne : tail ≠ [] := by
              intro he
              exact hall (by intro x hx; rw [he] at hx; cases hx)
            have hdw_ne : tail.dropWhile (fun x => !c x) ≠ [] := by
              intro he
              exact hall (List.dropWhile_eq_nil_iff.mp he)
            rw [takeWhile_append_of_neg _ tail (hl :: rest) hall,
              dropWhile_append_of_neg _ tail (hl :: rest) hall]
            have hglast : (tail.dropWhile fun x => !c x).getLast? = tail.getLast? :=
              getLast?_of_suffix (List.dropWhile_suffix _) hdw_ne
            have hrec := ih (tail.dropWhile fun x => !c x)
              (le_trans (dropWhile_length_le _ tail) hlentail)
              (by
                intro z hz
                apply hlast z
                rw [List.getLast?_cons_cons]
                cases tail with
                | nil => exact absurd rfl htail_ne
                | cons t0 ts =>
                  rw [List.getLast?_cons_cons]
                  rw [hglast] at hz
                  exact hz)
            rw [hrec, List.cons_append]

/-! ### String-level lemmas -/

theorem intercalate_cons_cons {α} (s a : List α) (b : List α) (t : List (List α)) :
    List.intercalate s (a :: b :: t) = a ++ s ++ List.intercalate s (b :: t) := by
  simp [List.intercalate, List.intersperse]

theorem intercalate_singleton {α} (s a : List α) :
    List.intercalate s [a] = a := by
  simp [List.intercalate, List.intersperse]

theorem splitNl_ne_nil : ∀ l : List Char, splitNl l ≠ []
  | [] => by simp [splitNl]
  | c :: cs => by
    by_cases h : c = '\n'
    · simp [splitNl, h]
    · simp only [splitNl, if_neg h]
      cases hs : splitNl cs with
      | nil => simp
      | cons t ts => simp

theorem splitNl_nl (cs : List Char) : splitNl ('\n' :: cs) = [] :: splitNl cs := by
  simp [splitNl]

theorem splitNl_other {c : Char} (h : ¬c = '\n') (cs : List Char) {t : List Char}
    {ts : List (List Char)} (hs : splitNl cs = t :: ts) :
    splitNl (c :: cs) = (c :: t) :: ts := by
  simp only [splitNl, if_neg h, hs]

theorem intercalate_splitNl : ∀ l : List Char,
    List.intercalate ['\n'] (splitNl l) = l := by
  intro l
  induction l with
  | nil => simp [splitNl, intercalate_singleton]
  | cons c cs ih =>
    cases hs : splitNl cs with
    | nil => exact absurd hs (splitNl_ne_nil cs)
    | cons t ts =>
      rw [hs] at ih
      by_cases h : c = '\n'
      · subst h
        rw [splitNl_nl, hs, intercalate_cons_cons, ih]
        simp
      · rw [splitNl_other h cs hs]
        cases ts with
        | nil =>
          rw [intercalate_singleton] at ih ⊢
          simp [ih]
        | cons u us =>
          rw [intercalate_cons_cons] at ih ⊢
          simp only [List.cons_append, List.append_assoc] at ih ⊢
          rw [ih]

theorem intercalate_append_last {α} (s : List α) :
    ∀ (xs : List (List α)) (y : List α), xs ≠ [] →
      List.intercalate s (xs ++ [y]) = List.intercalate s xs ++ s ++ y := by
  intro xs
  induction xs with
  | nil => intro y h; exact absurd rfl h
  | cons a t ih =>
    intro y _
    cases t with
    | nil => rw [intercalate_singleton]; simp [intercalate_cons_cons, intercalate_singleton]
    | cons b t' =>
      have h1 : (a :: b :: t') ++ [y] = a :: b :: (t' ++ [y]) := by simp
      rw [h1, intercalate_cons_cons, intercalate_cons_cons]
      have h2 : b :: (t' ++ [y]) = (b :: t') ++ [y] := by simp
      rw [h2, ih y (by simp)]
      simp [List.append_assoc]

/-- The character content of a record body block
`"" :: splitLines s ++ [""]`: a newline, the summary, a newline. -/
theorem joinLines_body (s : String) :
    (joinLines ("" :: (splitLines s ++ [""]))).data = '\n' :: s.data ++ ['\n'] := by
  show List.intercalate ['\n'] ((("" :: (splitLines s ++ [""])).map String.data)) = _
  have hmap : ("" :: (splitLines s ++ [""])).map String.data =
      [] :: (splitLines s).map String.data ++ [[]] := by
    simp
  rw [hmap]
  have hsplit : (splitLines s).map String.data = splitNl s.data := by
    have hcomp : (String.data ∘ fun l : List Char => (⟨l⟩ : String)) = id := rfl
    rw [splitLines, List.map_map, hcomp, List.map_id]
  rw [hsplit]
  have h1 : ([] : List Char) :: splitNl s.data ++ [[]] =
      ([] :: splitNl s.data) ++ [[]] := by simp
  rw [h1, intercalate_append_last _ _ _ (by simp)]
  cases hs : splitNl s.data with
  | nil => exact absurd hs (splitNl_ne_nil _)
  | cons t ts =>
    rw [intercalate_cons_cons]
    have : List.intercalate ['\n'] (t :: ts) = s.data := by
      rw [← hs]; exact intercalate_splitNl s.data
    rw [this]
    simp

theorem stripLeft_ws_pad {a y : List Char} (ha : ∀ c ∈ a, isPySpace c = true) :
    stripLeftChars (a ++ y) = stripLeftChars y := by
  simp only [stripLeftChars]
  exact List.dropWhile_append_of_pos ha

theorem stripRight_ws_pad {b y : List Char} (hb : ∀ c ∈ b, isPySpace c = true) :
    stripRightChars (y ++ b) = stripRightChars y := by
  simp only [stripRightChars, List.reverse_append]
  rw [List.dropWhile_append_of_pos (by intro c hc; exact hb c (List.mem_reverse.mp hc))]

theorem stripChars_ws_pad {a b y : List Char}
    (ha : ∀ c ∈ a, isPySpace c = true) (hb : ∀ c ∈ b, isPySpace c = true) :
    stripChars (a ++ y ++ b) = stripChars y := by
  simp only [stripChars]
  rw [List.append_assoc, stripLeft_ws_pad ha]
  simp only [stripLeftChars]
  rw [List.dropWhile_append]
  split
  · next hemp =>
    have hnil : y.dropWhile isPySpace = [] := by
      simpa using hemp
    rw [hnil]
    have hbnil : b.dropWhile isPySpace = [] := List.dropWhile_eq_nil_iff.mpr hb
    rw [hbnil]
  · exact stripRight_ws_pad hb

/-- Stripping the body block of an appended record yields the stripped
summary. -/
theorem pyStrip_body (s : String) :
    pyStrip (joinLines ("" :: (splitLines s ++ [""]))) = pyStrip s := by
  show (⟨stripChars (joinLines ("" :: (splitLines s ++ [""]))).data⟩ : String) = _
  rw [joinLines_body]
  have h : '\n' :: s.data ++ ['\n'] = ['\n'] ++ s.data ++ ['\n'] := by simp
  rw [h, stripChars_ws_pad (by simp [isPySpace]) (by simp [isPySpace])]
  rfl

theorem stripChars_eq_self {l : List Char}
    (h1 : ∀ c, l.head? = some c → isPySpace c = false)
    (h2 : ∀ c, l.getLast? = some c → isPySpace c = false) :
    stripChars l = l := by
  have hleft : stripLeftChars l = l := by
    cases l with
    | nil => rfl
    | cons c cs =>
      simp only [stripLeftChars, List.dropWhile_cons]
      rw [h1 c rfl]
      simp
  have hright : stripRightChars l = l := by
    cases hr : l.reverse with
    | nil =>
      have : l = [] := by simpa using congrArg List.reverse hr
      simp [this, stripRightChars]
    | cons c cs =>
      have hc : l.getLast? = some c := by
        rw [← List.head?_reverse, hr]; rfl
      simp only [stripRightChars, hr, List.dropWhile_cons]
      rw [h2 c hc]
      simp only [Bool.false_eq_true, if_false]
      rw [← hr, List.reverse_reverse]
  simp only [stripChars, hleft, hright]

/-! ### Marker and bracket lemmas -/

theorem mdMarker_mk (h : String) : mdMarker ("# " ++ h) = some h := by
  have hdata : ("# " ++ h).data = '#' :: ' ' :: h.data := by
    rw [String.data_append]; rfl
  simp [mdMarker, hdata, List.isPrefixOf]

theorem mdCut_mk (h : String) : mdCut ("# " ++ h) = true := by
  have hdata : ("# " ++ h).data = '#' :: ' ' :: h.data := by
    rw [String.data_append]; rfl
  simp [mdCut, hdata, List.isPrefixOf]

theorem mdCut_empty : mdCut "" = false := rfl

theorem mdMarker_cut {x : String} {g : String} (h : mdMarker x = some g) :
    mdCut x = true := by
  by_cases hp : (['#', ' '].isPrefixOf x.data) = true
  · exact hp
  · rw [mdMarker, if_neg (by simpa using hp)] at h
    cases h

theorem hasRun_tail {pat : List Char} {c : Char} {l : List Char}
    (h : hasRun pat (c :: l) = false) : hasRun pat l = false := by
  rw [hasRun] at h
  exact (Bool.or_eq_false_iff.mp h).2

theorem grabClose_append {x : List Char}
    (h : hasRun [']', ']'] (x ++ [']']) = false) (t : List Char) :
    grabClose (x ++ ']' :: ']' :: t) = some x := by
  induction x with
  | nil =>
    rw [List.nil_append, grabClose]
    simp [List.isPrefixOf]
  | cons c cs ih =>
    rw [List.cons_append, grabClose]
    have hp : ([']', ']'].isPrefixOf (c :: (cs ++ ']' :: ']' :: t))) = false := by
      by_cases hc : c = ']'
      · subst hc
        cases cs with
        | nil =>
          exfalso
          rw [List.cons_append, List.nil_append] at h
          simp [hasRun, List.isPrefixOf] at h
        | cons d ds =>
          by_cases hd : d = ']'
          · exfalso
            subst hd
            rw [List.cons_append, List.cons_append] at h
            simp [hasRun, List.isPrefixOf] at h
          · simp only [List.isPrefixOf, List.cons_append]
            simp [beq_iff_eq]
            exact fun he => absurd he.symm hd
      · simp only [List.isPrefixOf]
        simp [beq_iff_eq]
        intro he
        exact absurd he.symm hc
    rw [hp]
    simp only [Bool.false_eq_true, if_false]
    have hrun : hasRun [']', ']'] (cs ++ [']']) = false := by
      rw [List.cons_append] at h
      exact hasRun_tail h
    rw [ih hrun]
    rfl

theorem grabBrackets_wrap {x : List Char}
    (h : hasRun [']', ']'] (x ++ [']']) = false) :
    grabBrackets ('[' :: '[' :: (x ++ ']' :: ']' :: [])) = some x := by
  rw [grabBrackets]
  have hp : (['[', '['].isPrefixOf ('[' :: '[' :: (x ++ ']' :: ']' :: []))) = true := by
    simp [List.isPrefixOf]
  rw [hp]
  simp only [if_true]
  show grabClose (x ++ ']' :: ']' :: []) = some x
  exact grabClose_append h []

theorem data_wrap (f : String) :
    ("[[" ++ f ++ "]]").data = '[' :: '[' :: (f.data ++ ']' :: ']' :: []) := by
  rw [String.data_append, String.data_append]
  rfl

theorem pyStrip_wrap (f : String) :
    pyStrip ("[[" ++ f ++ "]]") = "[[" ++ f ++ "]]" := by
  show (⟨stripChars ("[[" ++ f ++ "]]").data⟩ : String) = "[[" ++ f ++ "]]"
  rw [data_wrap]
  rw [stripChars_eq_self]
  · rfl
  · intro c hc
    simp only [List.head?_cons, Option.some.injEq] at hc
    subst hc
    rfl
  · intro c hc
    have hshape : '[' :: '[' :: (f.data ++ ']' :: ']' :: []) =
        ('[' :: '[' :: f.data ++ [']']) ++ [']'] := by simp
    rw [hshape, List.getLast?_concat] at hc
    obtain rfl : ']' = c := by simpa using hc
    rfl

theorem goodName_parts {f : String} (hf : goodName f = true) :
    pyStrip f = f ∧ hasRun [']', ']'] (f.data ++ [']']) = false := by
  rw [goodName] at hf
  simp only [Bool.and_eq_true] at hf
  obtain ⟨⟨_, h2⟩, h3⟩ := hf
  refine ⟨by simpa using h2, by simpa using h3⟩

theorem extractBrackets_wrap {f : String} (hf : goodName f = true) :
    extractBrackets ("[[" ++ f ++ "]]") = some f := by
  obtain ⟨hstrip, hrun⟩ := goodName_parts hf
  rw [extractBrackets, data_wrap, grabBrackets_wrap hrun]
  show some (pyStrip ⟨f.data⟩) = some f
  rw [show (⟨f.data⟩ : String) = f from rfl, hstrip]

/-! ### Record round-trip lemmas -/

theorem goodSummary_parts {s : String} (hs : goodSummary s = true) :
    pyStrip s ≠ "" ∧ ∀ l ∈ splitLines s, mdCut l = false := by
  rw [goodSummary] at hs
  simp only [Bool.and_eq_true] at hs
  obtain ⟨h1, h2⟩ := hs
  constructor
  · simpa using h1
  · intro l hl
    have := (List.all_eq_true.mp h2) l hl
    simpa using this

/-- Parsing the lines of one appended record yields exactly its entry. -/
theorem parse_record {f s : String} (hf : goodName f = true)
    (hs : goodSummary s = true) :
    parse_journal_summary_file
        (("# " ++ ("[[" ++ f ++ "]]")) :: "" :: (splitLines s ++ [""])) =
      [⟨some ("[[" ++ f ++ "]]"), some f, pyStrip s⟩] := by
  obtain ⟨hne, hlines⟩ := goodSummary_parts hs
  have hall : ∀ x ∈ splitLines s ++ [""], (!mdCut x) = true := by
    intro x hx
    rcases List.mem_append.mp hx with hx | hx
    · simp [hlines x hx]
    · have : x = "" := by simpa using hx
      simp [this, mdCut_empty]
  rw [parse_journal_summary_file,
    findBlocks_cons_cons (mdMarker_mk ("[[" ++ f ++ "]]")),
    List.takeWhile_eq_self_iff.mpr hall,
    List.dropWhile_eq_nil_iff.mpr hall,
    findBlocks_nil]
  simp only [List.filterMap_cons, List.filterMap_nil]
  rw [pyStrip_wrap, pyStrip_body]
  rw [if_neg hne]
  rw [extractBrackets_wrap hf]

theorem parse_summary_append {doc : List String} {hl : String}
    (rest : List String) (hcut : mdCut hl = true)
    (hlast : ∀ l, doc.getLast? = some l → mdCut l = false) :
    parse_journal_summary_file (doc ++ hl :: rest) =
      parse_journal_summary_file doc ++ parse_journal_summary_file (hl :: rest) := by
  rw [parse_journal_summary_file, parse_journal_summary_file,
    parse_journal_summary_file,
    findBlocks_append mdMarker mdCut (fun x g h => mdMarker_cut h) hcut rest
      doc.length doc le_rfl hlast,
    List.filterMap_append]

theorem completionSet_append_block {doc : List String} {hl : String}
    (rest : List String) (hcut : mdCut hl = true)
    (hlast : ∀ l, doc.getLast? = some l → mdCut l = false) :
    completionSet (doc ++ hl :: rest) =
      completionSet doc ++ completionSet (hl :: rest) := by
  rw [completionSet, completionSet, completionSet,
    parse_summary_append rest hcut hlast, List.filterMap_append]

theorem append_record_shape (doc : List String) (h s : String) :
    append_summary_to_markdown doc h s =
      doc ++ ("# " ++ h) :: "" :: (splitLines s ++ [""]) := by
  rw [append_summary_to_markdown]
  simp

theorem lastLineOk_of_getLast {doc : List String} (h : lastLineOk doc = true) :
    ∀ l, doc.getLast? = some l → mdCut l = false := by
  intro l hl
  rw [lastLineOk, hl] at h
  simpa using h

theorem lastLineOk_append_record (doc : List String) (h s : String) :
    lastLineOk (append_summary_to_markdown doc h s) = true := by
  rw [append_record_shape, lastLineOk]
  have hshape : doc ++ ("# " ++ h) :: "" :: (splitLines s ++ [""]) =
      (doc ++ ("# " ++ h) :: "" :: splitLines s) ++ [""] := by simp
  rw [hshape, List.getLast?_concat]
  rfl

/-- Appending one well-formed record extends the completion set by exactly
its filename. -/
theorem completionSet_append_record {doc : List String} {f s : String}
    (hdoc : lastLineOk doc = true) (hfne : f ≠ "") (hf : goodName f = true)
    (hs : goodSummary s = true) :
    completionSet (append_summary_to_markdown doc ("[[" ++ f ++ "]]") s) =
      completionSet doc ++ [f ++ ".md"] := by
  rw [append_record_shape,
    completionSet_append_block _ (mdCut_mk _) (lastLineOk_of_getLast hdoc)]
  congr 1
  rw [completionSet, parse_record hf hs]
  simp [hfne]

/-- Appending any run of well-formed records extends the completion set by
exactly their filenames, in order. -/
theorem completionSet_appendAll :
    ∀ (F : List (String × String)) (doc : List String), lastLineOk doc = true →
      (∀ r ∈ F, r.1 ≠ "" ∧ goodName r.1 = true ∧ goodSummary r.2 = true) →
      completionSet (appendAll doc (wrapRecords F)) =
          completionSet doc ++ F.map (fun r => r.1 ++ ".md") ∧
        lastLineOk (appendAll doc (wrapRecords F)) = true := by
  intro F
  induction F with
  | nil =>
    intro doc hdoc _
    exact ⟨by simp [appendAll, wrapRecords], by simpa [appendAll, wrapRecords] using hdoc⟩
  | cons r F ih =>
    intro doc hdoc hgood
    have hr := hgood r (List.mem_cons_self r F)
    have hstep : appendAll doc (wrapRecords (r :: F)) =
        appendAll (append_summary_to_markdown doc ("[[" ++ r.1 ++ "]]") r.2)
          (wrapRecords F) := by
      rw [wrapRecords, List.map_cons, appendAll, List.foldl_cons]
      rfl
    have hdoc' : lastLineOk
        (append_summary_to_markdown doc ("[[" ++ r.1 ++ "]]") r.2) = true :=
      lastLineOk_append_record doc _ _
    obtain ⟨hset, hok⟩ := ih
      (append_summary_to_markdown doc ("[[" ++ r.1 ++ "]]") r.2) hdoc'
      (by intro x hx; exact hgood x (List.mem_cons_of_mem r hx))
    constructor
    · rw [hstep, hset, completionSet_append_record hdoc hr.1 hr.2.1 hr.2.2]
      simp
    · rw [hstep]
      exact hok

/-! ### Batch-loop lemmas -/

/-- When every entry is non-empty and the client succeeds with a truthy
summary on each, the loop processes everything in order and never aborts. -/
theorem runLoop_all_success (summ : String → Option String) :
    ∀ entries : List JournalEntry,
      (∀ e ∈ entries,
        e.content ≠ "" ∧ (summ e.content).isSome = true ∧ (summ e.content).getD "" ≠ "") →
      runLoop summ entries =
        ⟨entries.map fun e => (renderHeading (entryHeading e), (summ e.content).getD ""),
          entries.length, entries.map fun e => e.content, false⟩ := by
  intro entries
  induction entries with
  | nil => intro _; rfl
  | cons e es ih =>
    intro h
    obtain ⟨hc, hsome, hne⟩ := h e (List.mem_cons_self e es)
    rw [runLoop, if_neg hc]
    cases hs : summ e.content with
    | none => rw [hs] at hsome; cases hsome
    | some s =>
      have hsne : ¬s = "" := by
        rw [hs] at hne
        simpa using hne
      rw [ih (by intro x hx; exact h x (List.mem_cons_of_mem e hx))]
      simp [hs, hsne]

theorem readEntries_all (files : String → Option String) :
    ∀ paths : List String, (∀ p ∈ paths, (files p).isSome = true) →
      readEntries files paths =
        paths.map fun p => ⟨none, some (pyStem (basename p)), (files p).getD ""⟩ := by
  intro paths
  induction paths with
  | nil => intro _; rfl
  | cons p ps ih =>
    intro h
    have hp := h p (List.mem_cons_self p ps)
    rw [readEntries, List.filterMap_cons]
    cases hf : files p with
    | none => rw [hf] at hp; cases hp
    | some c =>
      rw [List.map_cons]
      rw [readEntries] at ih
      rw [ih (by intro x hx; exact h x (List.mem_cons_of_mem p hx))]
      simp [hf]

theorem inputOk_parts {files summ : String → Option String} {p : String}
    (h : inputOk files summ p = true) :
    pyStem (basename p) ++ ".md" = basename p ∧
      goodName (pyStem (basename p)) = true ∧
      ∃ c, files p = some c ∧ c ≠ "" ∧
        ∃ s, summ c = some s ∧ s ≠ "" ∧ goodSummary s = true := by
  rw [inputOk] at h
  cases hf : files p with
  | none => rw [hf] at h; simp at h
  | some c =>
    rw [hf] at h
    simp only [Bool.and_eq_true] at h
    obtain ⟨⟨h1, h2⟩, h3⟩ := h
    cases hs : summ c with
    | none => rw [hs] at h3; simp at h3
    | some s =>
      rw [hs] at h3
      simp only [Bool.and_eq_true] at h3
      obtain ⟨h4, h5, h6⟩ := h3
      refine ⟨by simpa using h1, h2, c, rfl, by simpa using h4, s, hs,
        by simpa using h5, h6⟩

theorem stem_ne_empty {p : String} (h : pyStem (basename p) ++ ".md" = basename p) :
    pyStem (basename p) ≠ "" := by
  intro he
  rw [he] at h
  have hb : basename p = ".md" := by
    rw [← h]
    rfl
  have h2 : pyStem (basename p) = ".md" := by
    rw [hb]
    decide
  exact absurd (he.symm.trans h2) (by decide)

/-! ### `mainRun` characterization in per-file mode -/

theorem mainRun_perFile_go {w : World} (service : String → ServiceOutcome)
    {inputs : List String} (out model url template : String)
    (hconf : w.confirmYes = true) (hup : w.serviceUp = true)
    (hne : readEntries w.files (selectFiles inputs (completionSet w.outDoc)) ≠ []) :
    mainRun w service ⟨none, some inputs, out⟩ model url template =
      (let entries := readEntries w.files (selectFiles inputs (completionSet w.outDoc))
       let summ := fun c => summarize_with_ollama service c model url template
       let r := runLoop summ entries
       ⟨if r.aborted then .abortedFailure else .completed,
         appendAll w.outDoc r.records, r.processed, entries.length, r.calls,
         out :: selectFiles inputs (completionSet w.outDoc)⟩) := by
  have hinpne : inputs ≠ [] := by
    intro he
    subst he
    exact hne rfl
  have htr : pyTruthyList (some inputs) = true := by
    rw [pyTruthyList]
    simpa using hinpne
  simp only [mainRun, htr, hconf, hup,
    show pyTruthyStr none = false from rfl, Bool.false_and, Bool.not_true,
    Bool.false_eq_true, if_false, if_true, Option.getD_some,
    List.singleton_append]
  rw [if_neg hne]

theorem mainRun_perFile_doc {w : World} (service : String → ServiceOutcome)
    {inputs : List String} (out model url template : String)
    (hconf : w.confirmYes = true) (hup : w.serviceUp = true)
    (hne : readEntries w.files (selectFiles inputs (completionSet w.outDoc)) ≠ []) :
    (mainRun w service ⟨none, some inputs, out⟩ model url template).doc =
      appendAll w.outDoc
        (runLoop (fun c => summarize_with_ollama service c model url template)
          (readEntries w.files (selectFiles inputs (completionSet w.outDoc)))).records := by
  rw [mainRun_perFile_go service out model url template hconf hup hne]

theorem mainRun_perFile_nothing {w : World} (service : String → ServiceOutcome)
    {inputs : List String} (out model url template : String)
    (hnil : readEntries w.files (selectFiles inputs (completionSet w.outDoc)) = []) :
    (mainRun w service ⟨none, some inputs, out⟩ model url template).doc =
      w.outDoc := by
  by_cases hinp : inputs = []
  · subst hinp
    rfl
  · have htr : pyTruthyList (some inputs) = true := by
      rw [pyTruthyList]
      simpa using hinp
    simp only [mainRun, htr,
      show pyTruthyStr none = false from rfl, Bool.false_and,
      Bool.false_eq_true, if_false, if_true, Option.getD_some]
    rw [if_pos hnil]

/-! ### Idempotence of the per-file batch -/

theorem contains_of_mem {l : List String} {a : String} (h : a ∈ l) :
    l.contains a = true := by
  simpa [List.contains] using (List.elem_iff.mpr h)

theorem mem_of_contains {l : List String} {a : String} (h : l.contains a = true) :
    a ∈ l := by
  rw [List.contains] at h
  exact List.elem_iff.mp h

/-- After a run of the per-file batch in which every input path is
well-behaved (`inputOk`), every input's base name is in the completion set
recomputed from the resulting output document, so a second selection is
empty. -/
theorem perFile_idempotent_core (w : World) (service : String → ServiceOutcome)
    (inputs : List String) (out model url template : String)
    (hconf : w.confirmYes = true) (hup : w.serviceUp = true)
    (hdoc : lastLineOk w.outDoc = true)
    (hin : ∀ p ∈ inputs,
      inputOk w.files
        (fun c => summarize_with_ollama service c model url template) p = true) :
    selectFiles inputs
      (completionSet
        (mainRun w service ⟨none, some inputs, out⟩ model url template).doc) = [] := by
  have hselsub : ∀ p ∈ selectFiles inputs (completionSet w.outDoc), p ∈ inputs :=
    fun p hp => (List.mem_filter.mp hp).1
  by_cases hents :
      readEntries w.files (selectFiles inputs (completionSet w.outDoc)) = []
  · rw [mainRun_perFile_nothing service out model url template hents]
    cases hselc : selectFiles inputs (completionSet w.outDoc) with
    | nil => rfl
    | cons p ps =>
      exfalso
      have hp := hin p (hselsub p (hselc ▸ List.mem_cons_self p ps))
      obtain ⟨_, _, c, hc, _⟩ := inputOk_parts hp
      rw [hselc, readEntries, List.filterMap_cons, hc] at hents
      simp at hents
  · rw [mainRun_perFile_doc service out model url template hconf hup hents]
    have hfiles : ∀ p ∈ selectFiles inputs (completionSet w.outDoc),
        (w.files p).isSome = true := by
      intro p hp
      obtain ⟨_, _, c, hc, _⟩ := inputOk_parts (hin p (hselsub p hp))
      rw [hc]
      rfl
    rw [readEntries_all w.files _ hfiles]
    have hloop := runLoop_all_success
      (fun c => summarize_with_ollama service c model url template)
      ((selectFiles inputs (completionSet w.outDoc)).map fun p =>
        ⟨none, some (pyStem (basename p)), (w.files p).getD ""⟩)
      (by
        intro e he
        obtain ⟨p, hp, rfl⟩ := List.mem_map.mp he
        obtain ⟨hmd, hgn, c, hc, hcne, s, hs, hsne, hgs⟩ :=
          inputOk_parts (hin p (hselsub p hp))
        refine ⟨by simpa [hc] using hcne, ?_, ?_⟩
        · show (summarize_with_ollama service ((w.files p).getD "") model url
            template).isSome = true
          rw [hc]
          show (summarize_with_ollama service c model url template).isSome = true
          rw [hs]
          rfl
        · show (summarize_with_ollama service ((w.files p).getD "") model url
            template).getD "" ≠ ""
          rw [hc]
          show (summarize_with_ollama service c model url template).getD "" ≠ ""
          rw [hs]
          simpa using hsne)
    have hrecords := congrArg LoopOut.records hloop
    simp only [] at hrecords
    rw [hrecords]
    have hrecs :
        ((selectFiles inputs (completionSet w.outDoc)).map fun p =>
            (⟨none, some (pyStem (basename p)), (w.files p).getD ""⟩ : JournalEntry)).map
          (fun e => (renderHeading (entryHeading e),
            (summarize_with_ollama service e.content model url template).getD "")) =
        wrapRecords ((selectFiles inputs (completionSet w.outDoc)).map fun p =>
          (pyStem (basename p),
            (summarize_with_ollama service ((w.files p).getD "") model url
              template).getD "")) := by
      rw [wrapRecords, List.map_map, List.map_map]
      apply List.map_congr_left
      intro p hp
      obtain ⟨hmd, hgn, c, hc, hcne, s, hs, hsne, hgs⟩ :=
        inputOk_parts (hin p (hselsub p hp))
      have hstem := stem_ne_empty hmd
      simp [entryHeading, renderHeading, hstem, Function.comp]
    rw [hrecs]
    have hFgood : ∀ r ∈ ((selectFiles inputs (completionSet w.outDoc)).map fun p =>
        (pyStem (basename p),
          (summarize_with_ollama service ((w.files p).getD "") model url
            template).getD "")),
        r.1 ≠ "" ∧ goodName r.1 = true ∧ goodSummary r.2 = true := by
      intro r hr
      obtain ⟨p, hp, rfl⟩ := List.mem_map.mp hr
      obtain ⟨hmd, hgn, c, hc, hcne, s, hs, hsne, hgs⟩ :=
        inputOk_parts (hin p (hselsub p hp))
      refine ⟨stem_ne_empty hmd, hgn, ?_⟩
      show goodSummary ((summarize_with_ollama service ((w.files p).getD "")
        model url template).getD "") = true
      rw [hc]
      show goodSummary ((summarize_with_ollama service c model url
        template).getD "") = true
      rw [hs]
      exact hgs
    obtain ⟨hset, _⟩ := completionSet_appendAll _ w.outDoc hdoc hFgood
    rw [selectFiles, List.filter_eq_nil_iff]
    intro p hp
    simp only [Bool.not_eq_true', Bool.not_eq_false]
    rw [hset]
    by_cases hcp : (completionSet w.outDoc).contains (basename p) = true
    · exact contains_of_mem (List.mem_append.mpr (Or.inl (mem_of_contains hcp)))
    · apply contains_of_mem
      apply List.mem_append.mpr
      apply Or.inr
      rw [List.map_map]
      obtain ⟨hmd, _⟩ := inputOk_parts (hin p hp)
      have hcf : (completionSet w.outDoc).contains (basename p) = false := by
        cases hb : (completionSet w.outDoc).contains (basename p) with
        | false => rfl
        | true => exact absurd hb hcp
      have hpsel : p ∈ selectFiles inputs (completionSet w.outDoc) :=
        List.mem_filter.mpr ⟨hp, by rw [hcf]; rfl⟩
      refine List.mem_map.mpr ⟨p, hpsel, ?_⟩
      exact hmd

/-! ### Loop step lemmas -/

theorem runLoop_nil (summ : String → Option String) :
    runLoop summ [] = ⟨[], 0, [], false⟩ := rfl

theorem runLoop_cons_success {summ : String → Option String} {e : JournalEntry}
    {s : String} (es : List JournalEntry)
    (hc : e.content ≠ "") (hs : summ e.content = some s) (hsne : s ≠ "") :
    runLoop summ (e :: es) =
      ⟨(renderHeading (entryHeading e), s) :: (runLoop summ es).records,
        (runLoop summ es).processed + 1,
        e.content :: (runLoop summ es).calls,
        (runLoop summ es).aborted⟩ := by
  rw [runLoop, if_neg hc]
  simp [hs, hsne]

theorem runLoop_cons_fail {summ : String → Option String} {e : JournalEntry}
    (es : List JournalEntry) (hc : e.content ≠ "") (hf : summ e.content = none) :
    runLoop summ (e :: es) = ⟨[], 0, [e.content], true⟩ := by
  rw [runLoop, if_neg hc]
  simp [hf]

theorem runLoop_cons_falsy {summ : String → Option String} {e : JournalEntry}
    (es : List JournalEntry) (hc : e.content ≠ "")
    (hf : summ e.content = some "") :
    runLoop summ (e :: es) = ⟨[], 0, [e.content], true⟩ := by
  rw [runLoop, if_neg hc]
  simp [hf]

/-! ### Claim theorems -/

/-- C2: abort-on-first-failure.  For entries `[X, Y, Z]` where the client
succeeds on `X` with a truthy summary and returns the failure signal on `Y`,
the batch loop records exactly `X`'s summary for appending, counts one
processed entry out of the three, sends exactly `X`'s and `Y`'s texts to the
client (so `Z` is never attempted), and aborts. -/
theorem c2_abort_on_failure (summ : String → Option String)
    (X Y Z : JournalEntry) (sX : String)
    (hX : X.content ≠ "") (hXs : summ X.content = some sX) (hsXne : sX ≠ "")
    (hY : Y.content ≠ "") (hYf : summ Y.content = none) :
    runLoop summ [X, Y, Z] =
        ⟨[(renderHeading (entryHeading X), sX)], 1, [X.content, Y.content], true⟩ ∧
      [X, Y, Z].length = 3 := by
  refine ⟨?_, rfl⟩
  rw [runLoop_cons_success [Y, Z] hX hXs hsXne, runLoop_cons_fail [Z] hY hYf]

/-- C2 witness: a concrete three-entry batch whose second summarization
fails. -/
theorem c2_witness :
    ((⟨none, some "x", "cx"⟩ : JournalEntry).content ≠ "" ∧
        (fun c => if c == "cx" then some "sx" else none) "cx" = some "sx" ∧
        ("sx" : String) ≠ "" ∧
        (⟨none, some "y", "cy"⟩ : JournalEntry).content ≠ "" ∧
        (fun c => if c == "cx" then some "sx" else none) "cy" = none) ∧
      runLoop (fun c => if c == "cx" then some "sx" else none)
          [⟨none, some "x", "cx"⟩, ⟨none, some "y", "cy"⟩, ⟨none, some "z", "cz"⟩] =
        ⟨[("[[x]]", "sx")], 1, ["cx", "cy"], true⟩ := by
  refine ⟨⟨by decide, by decide, by decide, by decide, by decide⟩, ?_⟩
  have h := c2_abort_on_failure (fun c => if c == "cx" then some "sx" else none)
    ⟨none, some "x", "cx"⟩ ⟨none, some "y", "cy"⟩ ⟨none, some "z", "cz"⟩ "sx"
    (by decide) (by decide) (by decide) (by decide) (by decide)
  exact h.1.trans (by decide)

/-- C4: Summarization Client failure totality.  For every service behavior,
entry text, model, address and template, each of the four failure modes of
the transport (connection error, timeout, other request error, malformed
JSON body) makes the client return the `none` failure signal; the client is
a total function, so no exception reaches the caller. -/
theorem c4_failure_totality (service : String → ServiceOutcome)
    (text model url template : String)
    (h : service (buildPrompt template text) = .connectionError ∨
        service (buildPrompt template text) = .timeout ∨
        service (buildPrompt template text) = .requestError ∨
        service (buildPrompt template text) = .jsonError) :
    summarize_with_ollama service text model url template = none := by
  rw [summarize_with_ollama]
  rcases h with h | h | h | h <;> rw [h]

/-- C4 witness: a timing-out service produces the failure signal. -/
theorem c4_witness :
    ((fun _ : String => ServiceOutcome.timeout) (buildPrompt "t {entry_text}" "x") =
        ServiceOutcome.timeout) ∧
      summarize_with_ollama (fun _ => ServiceOutcome.timeout) "x" "m" "u"
        "t {entry_text}" = none :=
  ⟨rfl, c4_failure_totality (fun _ => ServiceOutcome.timeout) "x" "m" "u"
    "t {entry_text}" (Or.inr (Or.inl rfl))⟩

/-- C5: mutual exclusivity of input modes.  When both an outline path and
per-file paths are supplied (both truthy, as the source tests them), the run
reports the configuration error, performs no reads (empty I/O log — in
particular the output document is never parsed and no input file is
opened), leaves the output document unchanged, and processes nothing. -/
theorem c5_mutual_exclusivity (w : World) (service : String → ServiceOutcome)
    (cfg : Config) (model url template : String)
    (h1 : pyTruthyStr cfg.inputJournalOrg = true)
    (h2 : pyTruthyList cfg.inputEntryMd = true) :
    mainRun w service cfg model url template =
      ⟨.configError, w.outDoc, 0, 0, [], []⟩ := by
  rw [mainRun, if_pos (by rw [h1, h2]; rfl)]

/-- C5 witness: supplying both `journal.org` and `a.md` aborts with no I/O. -/
theorem c5_witness :
    (pyTruthyStr (some "journal.org") = true ∧
        pyTruthyList (some ["a.md"]) = true) ∧
      mainRun exWorld exService ⟨some "journal.org", some ["a.md"], "out.md"⟩
          "m" "u" "t" =
        ⟨.configError, exWorld.outDoc, 0, 0, [], []⟩ :=
  ⟨⟨by decide, by decide⟩,
    c5_mutual_exclusivity exWorld exService
      ⟨some "journal.org", some ["a.md"], "out.md"⟩ "m" "u" "t"
      (by decide) (by decide)⟩

/-- C9: an empty-after-cleaning summary is returned as `some ""` by the
client — not the `none` failure signal — yet the batch loop treats it as a
failure: it appends nothing for that entry and aborts the remaining batch. -/
theorem c9_empty_summary_aborts (service : String → ServiceOutcome)
    (model url template : String) (raw : String) (e : JournalEntry)
    (es : List JournalEntry)
    (hresp : ∀ q, service q = .ok (some raw))
    (hclean : cleanSummary raw = "") (hc : e.content ≠ "") :
    summarize_with_ollama service e.content model url template = some "" ∧
      runLoop (fun c => summarize_with_ollama service c model url template)
          (e :: es) =
        ⟨[], 0, [e.content], true⟩ := by
  have hval : summarize_with_ollama service e.content model url template =
      some "" := by
    rw [summarize_with_ollama, hresp]
    simp [hclean]
  refine ⟨hval, ?_⟩
  exact runLoop_cons_falsy es hc hval

/-- C9 witness: the response `"<think>x</think>"` cleans to the empty
string; the client returns `some ""` and the loop aborts without
appending. -/
theorem c9_witness :
    ((∀ q : String, (fun _ => ServiceOutcome.ok (some "<think>x</think>")) q =
          ServiceOutcome.ok (some "<think>x</think>")) ∧
        cleanSummary "<think>x</think>" = "" ∧
        (⟨none, some "a", "hello"⟩ : JournalEntry).content ≠ "") ∧
      summarize_with_ollama (fun _ => ServiceOutcome.ok (some "<think>x</think>"))
          "hello" "m" "u" "t" = some "" ∧
      runLoop
          (fun c => summarize_with_ollama
            (fun _ => ServiceOutcome.ok (some "<think>x</think>")) c "m" "u" "t")
          [⟨none, some "a", "hello"⟩] =
        ⟨[], 0, ["hello"], true⟩ := by
  refine ⟨⟨fun q => rfl, by decide, by decide⟩, ?_⟩
  have h := c9_empty_summary_aborts
    (fun _ => ServiceOutcome.ok (some "<think>x</think>")) "m" "u" "t"
    "<think>x</think>" ⟨none, some "a", "hello"⟩ []
    (fun q => rfl) (by decide) (by decide)
  exact ⟨h.1.trans (by decide), h.2⟩

/-- C1 counterexample: the claim fails as stated, over all per-file input
paths.  The input `a.txt` is readable with truthy content, the run completes
successfully processing it, but the completion set of the new output
document holds `a.md` (the extension-stripped stem plus the fixed `.md`
suffix), not `a.txt`, so the second run selects `a.txt` again. -/
theorem c1_counterexample :
    (mainRun exWorld exService ⟨none, some ["a.txt"], "out.md"⟩ "m" "u" "t").status =
        RunStatus.completed ∧
      (mainRun exWorld exService ⟨none, some ["a.txt"], "out.md"⟩ "m" "u" "t").processed = 1 ∧
      selectFiles ["a.txt"]
        (completionSet
          (mainRun exWorld exService ⟨none, some ["a.txt"], "out.md"⟩ "m" "u" "t").doc) =
        ["a.txt"] := by
  refine ⟨by decide, by decide, by decide⟩

/-- C1 (amended): idempotence of the per-file batch holds for well-behaved
runs: every input path names a readable `<stem>.md` file with truthy
content and a round-trip-safe stem, the client returns a truthy summary
that survives the output round trip for each, the operator confirms, the
service is reachable, and the output document's last line does not open a
`# ` block.  Then after one complete run every input's base name is in the
completion set recomputed from the output document, and the second
selection is empty. -/
theorem c1_amended (w : World) (service : String → ServiceOutcome)
    (inputs : List String) (out model url template : String)
    (hconf : w.confirmYes = true) (hup : w.serviceUp = true)
    (hdoc : lastLineOk w.outDoc = true)
    (hin : ∀ p ∈ inputs,
      inputOk w.files
        (fun c => summarize_with_ollama service c model url template) p = true) :
    selectFiles inputs
      (completionSet
        (mainRun w service ⟨none, some inputs, out⟩ model url template).doc) = [] :=
  perFile_idempotent_core w service inputs out model url template hconf hup hdoc hin

/-- C1 witness: a run over `a.md` against an empty output document, after
which re-selection is empty. -/
theorem c1_witness :
    (exWorld.confirmYes = true ∧ exWorld.serviceUp = true ∧
        lastLineOk exWorld.outDoc = true ∧
        ∀ p ∈ ["a.md"],
          inputOk exWorld.files
            (fun c => summarize_with_ollama exService c "m" "u" "t") p = true) ∧
      selectFiles ["a.md"]
        (completionSet
          (mainRun exWorld exService ⟨none, some ["a.md"], "out.md"⟩ "m" "u" "t").doc) =
        [] := by
  refine ⟨⟨rfl, rfl, by decide, by decide⟩, ?_⟩
  exact c1_amended exWorld exService ["a.md"] "out.md" "m" "u" "t" rfl rfl
    (by decide) (by decide)

/-! ### Org scanner lemmas -/

theorem orgDateCapture_endsGt {first : String} (h : lineEndsGt first = true)
    (ls : List String) :
    orgDateCapture ls first = some (⟨first.data.dropLast⟩, ls) := by
  cases ls with
  | nil => rw [orgDateCapture, if_pos h]
  | cons a as => rw [orgDateCapture, if_pos h]

theorem orgDateCapture_suffix :
    ∀ (ls : List String) (first : String) (d : String) (rest : List String),
      orgDateCapture ls first = some (d, rest) → rest <:+ ls := by
  intro ls
  induction ls with
  | nil =>
    intro first d rest h
    rw [orgDateCapture] at h
    by_cases hg : lineEndsGt first = true
    · rw [if_pos hg] at h
      obtain ⟨rfl, rfl⟩ : (⟨first.data.dropLast⟩ : String) = d ∧ ([] : List String) = rest := by
        constructor <;> [exact congrArg Prod.fst (Option.some.inj h);
          exact congrArg Prod.snd (Option.some.inj h)]
      exact List.suffix_rfl
    · rw [if_neg hg] at h
      cases h
  | cons l ls' ih =>
    intro first d rest h
    rw [orgDateCapture] at h
    by_cases hg : lineEndsGt first = true
    · rw [if_pos hg] at h
      obtain ⟨rfl, rfl⟩ : (⟨first.data.dropLast⟩ : String) = d ∧ l :: ls' = rest := by
        constructor <;> [exact congrArg Prod.fst (Option.some.inj h);
          exact congrArg Prod.snd (Option.some.inj h)]
      exact List.suffix_rfl
    · rw [if_neg hg] at h
      cases hrec : orgDateCapture ls' l with
      | none => rw [hrec] at h; cases h
      | some r =>
        rw [hrec] at h
        have hr : rest = r.2 := by
          have := congrArg Prod.snd (Option.some.inj h)
          simpa using this.symm
        subst hr
        exact (ih l r.1 r.2 (by rw [hrec])).trans (List.suffix_cons l ls')

theorem orgBlocksFuel_cons_nostart {l : String} (h : orgStarts l = false)
    (f : Nat) (ls : List String) :
    orgBlocksFuel (f + 1) (l :: ls) = orgBlocksFuel f ls := by
  simp [orgBlocksFuel, h]

theorem orgBlocksFuel_cons_nocap {l : String} (h : orgStarts l = true)
    {ls : List String} (hc : orgDateCapture ls (orgRest l) = none) (f : Nat) :
    orgBlocksFuel (f + 1) (l :: ls) = orgBlocksFuel f ls := by
  simp [orgBlocksFuel, h, hc]

theorem orgBlocksFuel_cons_cap_nil {l : String} (h : orgStarts l = true)
    {ls : List String} {d : String}
    (hc : orgDateCapture ls (orgRest l) = some (d, [])) (f : Nat) :
    orgBlocksFuel (f + 1) (l :: ls) = [(d, [])] := by
  simp [orgBlocksFuel, h, hc]

theorem orgBlocksFuel_cons_cap {l : String} (h : orgStarts l = true)
    {ls : List String} {d b : String} {rest : List String}
    (hc : orgDateCapture ls (orgRest l) = some (d, b :: rest)) (f : Nat) :
    orgBlocksFuel (f + 1) (l :: ls) =
      (d, b :: rest.takeWhile fun x => !orgCut x) ::
        orgBlocksFuel f (rest.dropWhile fun x => !orgCut x) := by
  simp [orgBlocksFuel, h, hc]

theorem orgBlocksFuel_congr :
    ∀ f₁ f₂ l, l.length ≤ f₁ → l.length ≤ f₂ →
      orgBlocksFuel f₁ l = orgBlocksFuel f₂ l := by
  intro f₁
  induction f₁ with
  | zero =>
    intro f₂ l h1 _
    have hl : l = [] := List.eq_nil_of_length_eq_zero (Nat.le_zero.mp h1)
    subst hl
    cases f₂ <;> rfl
  | succ f ih =>
    intro f₂ l h1 h2
    cases l with
    | nil => cases f₂ <;> rfl
    | cons x xs =>
      cases f₂ with
      | zero => simp at h2
      | succ g =>
        simp only [List.length_cons, Nat.succ_le_succ_iff] at h1 h2
        cases hst : orgStarts x with
        | false =>
          rw [orgBlocksFuel_cons_nostart hst, orgBlocksFuel_cons_nostart hst]
          exact ih g xs h1 h2
        | true =>
          cases hc : orgDateCapture xs (orgRest x) with
          | none =>
            rw [orgBlocksFuel_cons_nocap hst hc, orgBlocksFuel_cons_nocap hst hc]
            exact ih g xs h1 h2
          | some r =>
            obtain ⟨d, rest⟩ := r
            have hsuf : rest.length ≤ xs.length :=
              (orgDateCapture_suffix xs (orgRest x) d rest hc).sublist.length_le
            cases rest with
            | nil =>
              rw [orgBlocksFuel_cons_cap_nil hst hc, orgBlocksFuel_cons_cap_nil hst hc]
            | cons b rest' =>
              rw [orgBlocksFuel_cons_cap hst hc, orgBlocksFuel_cons_cap hst hc]
              have hd : (rest'.dropWhile fun x => !orgCut x).length ≤ rest'.length :=
                dropWhile_length_le _ rest'
              simp only [List.length_cons] at hsuf
              have hb1 : (rest'.dropWhile fun x => !orgCut x).length ≤ f := by omega
              have hb2 : (rest'.dropWhile fun x => !orgCut x).length ≤ g := by omega
              rw [ih g _ hb1 hb2]

theorem orgBlocks_nil : orgBlocks [] = [] := rfl

theorem orgBlocks_cons_nostart {l : String} (h : orgStarts l = false)
    (ls : List String) : orgBlocks (l :: ls) = orgBlocks ls := by
  show orgBlocksFuel (ls.length + 1) (l :: ls) = _
  rw [orgBlocksFuel_cons_nostart h]
  rfl

theorem orgBlocks_cons_nocap {l : String} (h : orgStarts l = true)
    {ls : List String} (hc : orgDateCapture ls (orgRest l) = none) :
    orgBlocks (l :: ls) = orgBlocks ls := by
  show orgBlocksFuel (ls.length + 1) (l :: ls) = _
  rw [orgBlocksFuel_cons_nocap h hc]
  rfl

theorem orgBlocks_cons_cap_nil {l : String} (h : orgStarts l = true)
    {ls : List String} {d : String}
    (hc : orgDateCapture ls (orgRest l) = some (d, [])) :
    orgBlocks (l :: ls) = [(d, [])] := by
  show orgBlocksFuel (ls.length + 1) (l :: ls) = _
  rw [orgBlocksFuel_cons_cap_nil h hc]

theorem orgBlocks_cons_cap {l : String} (h : orgStarts l = true)
    {ls : List String} {d b : String} {rest : List String}
    (hc : orgDateCapture ls (orgRest l) = some (d, b :: rest)) :
    orgBlocks (l :: ls) =
      (d, b :: rest.takeWhile fun x => !orgCut x) ::
        orgBlocks (rest.dropWhile fun x => !orgCut x) := by
  show orgBlocksFuel (ls.length + 1) (l :: ls) = _
  rw [orgBlocksFuel_cons_cap h hc]
  congr 1
  have hsuf : (b :: rest).length ≤ ls.length :=
    (orgDateCapture_suffix ls (orgRest l) d (b :: rest) hc).sublist.length_le
  simp only [List.length_cons] at hsuf
  exact orgBlocksFuel_congr ls.length (rest.dropWhile fun x => !orgCut x).length _
    (le_trans (dropWhile_length_le _ rest) (by omega)) le_rfl

/-! ### Outline-parser equivalence (C6) -/

theorem amendedBlocksFuelC6_nil : ∀ f, amendedBlocksFuelC6 f [] = [] := by
  intro f
  cases f <;> rfl

theorem orgBlocksFuel_amended :
    ∀ f l, orgBlocksFuel f l = amendedBlocksFuelC6 f l := by
  intro f
  induction f with
  | zero => intro l; rfl
  | succ f ih =>
    intro l
    cases l with
    | nil => rfl
    | cons x xs =>
      cases hst : orgStarts x with
      | false =>
        rw [orgBlocksFuel_cons_nostart hst]
        have hr : amendedBlocksFuelC6 (f + 1) (x :: xs) = amendedBlocksFuelC6 f xs := by
          simp [amendedBlocksFuelC6, hst]
        rw [hr]
        exact ih xs
      | true =>
        cases hc : orgDateCapture xs (orgRest x) with
        | none =>
          rw [orgBlocksFuel_cons_nocap hst hc]
          have hr : amendedBlocksFuelC6 (f + 1) (x :: xs) = amendedBlocksFuelC6 f xs := by
            simp [amendedBlocksFuelC6, hst, hc]
          rw [hr]
          exact ih xs
        | some r =>
          obtain ⟨d, rest⟩ := r
          cases rest with
          | nil =>
            rw [orgBlocksFuel_cons_cap_nil hst hc]
            have hr : amendedBlocksFuelC6 (f + 1) (x :: xs) =
                (d, []) :: amendedBlocksFuelC6 f [] := by
              simp [amendedBlocksFuelC6, hst, hc]
            rw [hr, amendedBlocksFuelC6_nil]
          | cons b rest' =>
            rw [orgBlocksFuel_cons_cap hst hc]
            have hr : amendedBlocksFuelC6 (f + 1) (x :: xs) =
                (d, b :: rest'.takeWhile fun y => !orgCut y) ::
                  amendedBlocksFuelC6 f (rest'.dropWhile fun y => !orgCut y) := by
              simp [amendedBlocksFuelC6, hst, hc]
            rw [hr, ih]

/-! ### Outline block lemmas (C8) -/

theorem isPrefixOf_append_self {α} [BEq α] [LawfulBEq α] :
    ∀ (l t : List α), l.isPrefixOf (l ++ t) = true := by
  intro l t
  induction l with
  | nil => exact List.isPrefixOf_nil_left
  | cons a as ih => simp [List.isPrefixOf, ih]

theorem data_markerLine (d : String) :
    (orgMarkerLine d).data = orgMarkerPre ++ (d.data ++ ['>']) := by
  rw [orgMarkerLine, String.data_append, String.data_append]
  rfl

theorem orgStarts_markerLine (d : String) :
    orgStarts (orgMarkerLine d) = true := by
  rw [orgStarts, data_markerLine]
  exact isPrefixOf_append_self _ _

theorem lineEndsGt_rest_markerLine (d : String) :
    lineEndsGt (orgRest (orgMarkerLine d)) = true := by
  rw [lineEndsGt, orgRest, data_markerLine, List.drop_left]
  rw [show d.data ++ ['>'] = (d.data ++ []) ++ ['>'] from by simp]
  rw [List.getLast?_concat]
  rfl

theorem orgRest_markerLine (d : String) :
    orgRest (orgMarkerLine d) = ⟨d.data ++ ['>']⟩ := by
  rw [orgRest, data_markerLine, List.drop_left]

theorem orgDateCapture_markerLine (d : String) (ls : List String) :
    orgDateCapture ls (orgRest (orgMarkerLine d)) = some (d, ls) := by
  rw [orgDateCapture_endsGt (lineEndsGt_rest_markerLine d) ls, orgRest_markerLine]
  congr 2
  show (⟨(d.data ++ ['>']).dropLast⟩ : String) = d
  rw [List.dropLast_concat]

theorem orgCut_markerLine (d : String) : orgCut (orgMarkerLine d) = true := by
  rw [orgCut, data_markerLine, List.isPrefixOf_iff_prefix]
  exact List.IsPrefix.trans (by decide) (List.prefix_append _ _)

theorem orgStarts_cut {l : String} (h : orgStarts l = true) : orgCut l = true := by
  rw [orgStarts] at h
  rw [orgCut, List.isPrefixOf_iff_prefix]
  exact List.IsPrefix.trans (by decide) (List.isPrefixOf_iff_prefix.mp h)

theorem orgBlocks_orgBlock {d : String} {body : List String} (hne : body ≠ [])
    (hall : ∀ l ∈ body, orgCut l = false) :
    orgBlocks (orgBlock d body) = [(d, body)] := by
  cases body with
  | nil => exact absurd rfl hne
  | cons b br =>
    rw [orgBlock,
      orgBlocks_cons_cap (orgStarts_markerLine d) (orgDateCapture_markerLine d _)]
    have hbr : ∀ l ∈ br, (!orgCut l) = true := by
      intro l hl
      simp [hall l (List.mem_cons_of_mem b hl)]
    rw [List.takeWhile_eq_self_iff.mpr hbr, List.dropWhile_eq_nil_iff.mpr hbr,
      orgBlocks_nil]

theorem orgBlocks_junk :
    ∀ junk : List String, (∀ l ∈ junk, orgStarts l = false) →
      ∀ x, orgBlocks (junk ++ x) = orgBlocks x := by
  intro junk
  induction junk with
  | nil => intro _ x; rw [List.nil_append]
  | cons j js ih =>
    intro h x
    rw [List.cons_append,
      orgBlocks_cons_nostart (h j (List.mem_cons_self j js)),
      ih (fun l hl => h l (List.mem_cons_of_mem j hl)) x]

theorem getLast?_orgBlock {d : String} {body : List String} (hne : body ≠ []) :
    (orgBlock d body).getLast? = body.getLast? := by
  cases body with
  | nil => exact absurd rfl hne
  | cons b br => exact List.getLast?_cons_cons

theorem joinLines_nil : joinLines [] = "" := rfl

/-- Scanning an org document extended past a cutting line splits at that
line, provided every marker opening inside the first part closes its date
on its own line and the first part's final line is not a cutting line. -/
theorem orgBlocks_append {hl : String} (hcut : orgCut hl = true)
    (rest : List String) :
    ∀ n ls, ls.length ≤ n →
      (∀ l ∈ ls, orgStarts l = true → lineEndsGt (orgRest l) = true) →
      (∀ l, ls.getLast? = some l → orgCut l = false) →
      orgBlocks (ls ++ hl :: rest) = orgBlocks ls ++ orgBlocks (hl :: rest) := by
  intro n
  induction n with
  | zero =>
    intro ls h1 _ _
    have hls : ls = [] := List.eq_nil_of_length_eq_zero (Nat.le_zero.mp h1)
    subst hls
    simp [orgBlocks_nil]
  | succ n ih =>
    intro ls hlen hstart hlast
    cases ls with
    | nil => simp [orgBlocks_nil]
    | cons l ls' =>
      simp only [List.length_cons, Nat.succ_le_succ_iff] at hlen
      cases hst : orgStarts l with
      | false =>
        rw [List.cons_append, orgBlocks_cons_nostart hst, orgBlocks_cons_nostart hst]
        cases ls' with
        | nil => simp [orgBlocks_nil]
        | cons y ys =>
          exact ih (y :: ys) hlen
            (fun z hz => hstart z (List.mem_cons_of_mem l hz))
            (by
              intro z hz
              exact hlast z (by rw [List.getLast?_cons_cons]; exact hz))
      | true =>
        have hgt : lineEndsGt (orgRest l) = true :=
          hstart l (List.mem_cons_self l ls') hst
        cases ls' with
        | nil =>
          exfalso
          have hf : orgCut l = false := hlast l rfl
          rw [orgStarts_cut hst] at hf
          exact Bool.noConfusion hf
        | cons b tail =>
          rw [List.cons_append, List.cons_append,
            orgBlocks_cons_cap hst (orgDateCapture_endsGt hgt _),
            orgBlocks_cons_cap hst (orgDateCapture_endsGt hgt _)]
          have hlentail : tail.length ≤ n := by
            have := hlen
            simp only [List.length_cons] at this
            omega
          by_cases hall : ∀ x ∈ tail, (!orgCut x) = true
          · have ht1 : (tail ++ hl :: rest).takeWhile (fun x => !orgCut x) = tail := by
              rw [List.takeWhile_append_of_pos hall]
              simp [List.takeWhile_cons, hcut]
            have hd1 : (tail ++ hl :: rest).dropWhile (fun x => !orgCut x) =
                hl :: rest := by
              rw [List.dropWhile_append_of_pos hall]
              simp [List.dropWhile_cons, hcut]
            have ht2 : tail.takeWhile (fun x => !orgCut x) = tail :=
              List.takeWhile_eq_self_iff.mpr hall
            have hd2 : tail.dropWhile (fun x => !orgCut x) = [] :=
              List.dropWhile_eq_nil_iff.mpr hall
            rw [ht1, hd1, ht2, hd2, orgBlocks_nil]
            simp
          · have htail_ne : tail ≠ [] := by
              intro he
              exact hall (by intro x hx; rw [he] at hx; cases hx)
            have hdw_ne : tail.dropWhile (fun x => !orgCut x) ≠ [] := by
              intro he
              exact hall (List.dropWhile_eq_nil_iff.mp he)
            rw [takeWhile_append_of_neg _ tail (hl :: rest) hall,
              dropWhile_append_of_neg _ tail (hl :: rest) hall]
            have hglast : (tail.dropWhile fun x => !orgCut x).getLast? =
                tail.getLast? :=
              getLast?_of_suffix (List.dropWhile_suffix _) hdw_ne
            have hrec := ih (tail.dropWhile fun x => !orgCut x)
              (le_trans (dropWhile_length_le _ tail) hlentail)
              (fun z hz => hstart z (List.mem_cons_of_mem l
                (List.mem_cons_of_mem b
                  ((List.dropWhile_suffix _).sublist.subset hz))))
              (by
                intro z hz
                apply hlast z
                rw [List.getLast?_cons_cons]
                cases tail with
                | nil => exact absurd rfl htail_ne
                | cons t0 ts =>
                  rw [List.getLast?_cons_cons]
                  rw [hglast] at hz
                  exact hz)
            rw [hrec, List.cons_append]

/-- Splitting off one leading org block followed by another block. -/
theorem orgBlocks_split {d : String} {body : List String}
    (hne : body ≠ []) (hall : ∀ l ∈ body, orgCut l = false)
    (d2 : String) (rest : List String) :
    orgBlocks (orgBlock d body ++ orgMarkerLine d2 :: rest) =
      (d, body) :: orgBlocks (orgMarkerLine d2 :: rest) := by
  rw [orgBlocks_append (orgCut_markerLine d2) rest (orgBlock d body).length
    (orgBlock d body) le_rfl
    (by
      intro l hl hst
      rcases List.mem_cons.mp hl with hl | hl
      · rw [hl]
        exact lineEndsGt_rest_markerLine d
      · exfalso
        have := hall l hl
        rw [orgStarts_cut hst] at this
        exact Bool.noConfusion this)
    (by
      intro l hl
      rw [getLast?_orgBlock hne] at hl
      exact hall l (List.mem_of_mem_getLast? hl))]
  rw [orgBlocks_orgBlock hne hall]
  rfl

/-- C6 counterexample: the block extent as claimed fails on the code.  In a
document whose first block's body contains the non-marker org heading
`** Other`, the source parser cuts the body at that line (the lookahead of
its regex stops at any line starting with `** `), while the claimed extent
runs to the next `** Journal Entry <DATE>` marker: the parsers disagree,
the source yielding body `x` and the claimed reading `x\n** Other\ny`. -/
theorem c6_counterexample :
    parse_org_journal ["** Journal Entry <A>", "x", "** Other", "y"] ≠
        parse_org_asClaimedC6 ["** Journal Entry <A>", "x", "** Other", "y"] ∧
      parse_org_journal ["** Journal Entry <A>", "x", "** Other", "y"] =
        [⟨some "A", none, "x"⟩] ∧
      parse_org_asClaimedC6 ["** Journal Entry <A>", "x", "** Other", "y"] =
        [⟨some "A", none, "x\n** Other\ny"⟩] := by
  refine ⟨by decide, by decide, by decide⟩

/-- C6 (amended): for every outline document, a block opens at a line
beginning `** Journal Entry <`; its date runs to the first line end closing
with `>` (possibly spanning whole lines, which belong to the date, not the
body), and an opening whose date never closes starts no block.  The body is
the line immediately after the date's closing line (always, even when it
begins with `** `) followed by the subsequent lines up to just before the
earliest later line beginning with `** ` — any org heading at that level,
not only journal-entry markers — or the end of the document; marker-like
text not at the start of a line never starts a new block. -/
theorem c6_amended : ∀ lines : List String,
    parse_org_journal lines = parse_org_amendedC6 lines := by
  intro lines
  rw [parse_org_journal, parse_org_amendedC6, orgBlocks, orgBlocksFuel_amended]

/-- C8: order preservation of the outline parser.  For every document made
of leading text that never opens a journal-entry marker, followed by three
blocks dated `a`, `b`, `c` in that order, each with a body that contains no
`** `-opening line and is non-empty after stripping, the parser returns
exactly the three entries in document order. -/
theorem c8_order_preservation (a b c : String) (junk bA bB bC : List String)
    (hj : ∀ l ∈ junk, orgStarts l = false)
    (hA : ∀ l ∈ bA, orgCut l = false) (hB : ∀ l ∈ bB, orgCut l = false)
    (hC : ∀ l ∈ bC, orgCut l = false)
    (hAne : pyStrip (joinLines bA) ≠ "") (hBne : pyStrip (joinLines bB) ≠ "")
    (hCne : pyStrip (joinLines bC) ≠ "") :
    parse_org_journal (junk ++ orgBlock a bA ++ orgBlock b bB ++ orgBlock c bC) =
      [⟨some (pyStrip a), none, pyStrip (joinLines bA)⟩,
        ⟨some (pyStrip b), none, pyStrip (joinLines bB)⟩,
        ⟨some (pyStrip c), none, pyStrip (joinLines bC)⟩] := by
  have hAnil : bA ≠ [] := by
    intro he
    rw [he, joinLines_nil] at hAne
    exact hAne rfl
  have hBnil : bB ≠ [] := by
    intro he
    rw [he, joinLines_nil] at hBne
    exact hBne rfl
  have hCnil : bC ≠ [] := by
    intro he
    rw [he, joinLines_nil] at hCne
    exact hCne rfl
  rw [parse_org_journal]
  rw [show junk ++ orgBlock a bA ++ orgBlock b bB ++ orgBlock c bC =
      junk ++ (orgBlock a bA ++ (orgMarkerLine b :: (bB ++ orgBlock c bC)))
    from by simp [orgBlock]]
  rw [orgBlocks_junk junk hj]
  rw [orgBlocks_split hAnil hA b (bB ++ orgBlock c bC)]
  rw [show orgMarkerLine b :: (bB ++ orgBlock c bC) =
      orgBlock b bB ++ orgMarkerLine c :: bC from by simp [orgBlock]]
  rw [orgBlocks_split hBnil hB c bC]
  rw [show orgMarkerLine c :: bC = orgBlock c bC from rfl]
  rw [orgBlocks_orgBlock hCnil hC]
  simp only [List.filterMap_cons, List.filterMap_nil]
  rw [if_neg hAne, if_neg hBne, if_neg hCne]

/-- C8 witness: a document with blocks dated A, B, C in that order parses
to exactly those three entries in order. -/
theorem c8_witness :
    ((∀ l ∈ ["preamble"], orgStarts l = false) ∧
        (∀ l ∈ ["one"], orgCut l = false) ∧ (∀ l ∈ ["two"], orgCut l = false) ∧
        (∀ l ∈ ["three"], orgCut l = false) ∧
        pyStrip (joinLines ["one"]) ≠ "" ∧ pyStrip (joinLines ["two"]) ≠ "" ∧
        pyStrip (joinLines ["three"]) ≠ "") ∧
      parse_org_journal
          (["preamble"] ++ orgBlock "A" ["one"] ++ orgBlock "B" ["two"] ++
            orgBlock "C" ["three"]) =
        [⟨some (pyStrip "A"), none, pyStrip (joinLines ["one"])⟩,
          ⟨some (pyStrip "B"), none, pyStrip (joinLines ["two"])⟩,
          ⟨some (pyStrip "C"), none, pyStrip (joinLines ["three"])⟩] := by
  refine ⟨⟨by decide, by decide, by decide, by decide, by decide, by decide,
    by decide⟩, ?_⟩
  exact c8_order_preservation "A" "B" "C" ["preamble"] ["one"] ["two"] ["three"]
    (by decide) (by decide) (by decide) (by decide) (by decide) (by decide)
    (by decide)

/-- C3 counterexample: the round trip fails for some non-empty summary
texts.  The summary `" "` is non-empty, but the written record's body strips
to nothing, so re-parsing discards the block and the completion set does
not contain `note1.md`. -/
theorem c3_counterexample :
    (" " : String) ≠ "" ∧
      "note1.md" ∉ completionSet (append_summary_to_markdown [] "[[note1]]" " ") := by
  refine ⟨by decide, by decide⟩

/-- C3 (amended): for every summary text that strips to something non-empty
and none of whose lines begins with `# `, appending a record with heading
`[[note1]]` to an output document whose last line does not itself begin
with `# ` (or to an empty document) and re-parsing yields a completion set
containing `note1.md`. -/
theorem c3_amended (doc : List String) (s : String)
    (hdoc : lastLineOk doc = true) (hs : goodSummary s = true) :
    "note1.md" ∈ completionSet (append_summary_to_markdown doc "[[note1]]" s) := by
  have h := @completionSet_append_record doc "note1" s hdoc (by decide) (by decide) hs
  rw [show ("[[note1]]" : String) = "[[" ++ "note1" ++ "]]" from rfl, h]
  exact List.mem_append.mpr (Or.inr (List.mem_singleton.mpr rfl))

/-- C3 witness: a concrete record round trip. -/
theorem c3_amended_witness :
    (lastLineOk [] = true ∧ goodSummary "Nice day." = true) ∧
      "note1.md" ∈
        completionSet (append_summary_to_markdown [] "[[note1]]" "Nice day.") :=
  ⟨⟨by decide, by decide⟩, c3_amended [] "Nice day." (by decide) (by decide)⟩

/-! ### Replicated-input lemmas (C10) -/

theorem mainRun_perFile_processed {w : World} (service : String → ServiceOutcome)
    {inputs : List String} (out model url template : String)
    (hconf : w.confirmYes = true) (hup : w.serviceUp = true)
    (hne : readEntries w.files (selectFiles inputs (completionSet w.outDoc)) ≠ []) :
    (mainRun w service ⟨none, some inputs, out⟩ model url template).processed =
      (runLoop (fun c => summarize_with_ollama service c model url template)
        (readEntries w.files
          (selectFiles inputs (completionSet w.outDoc)))).processed := by
  rw [mainRun_perFile_go service out model url template hconf hup hne]

theorem mainRun_perFile_calls {w : World} (service : String → ServiceOutcome)
    {inputs : List String} (out model url template : String)
    (hconf : w.confirmYes = true) (hup : w.serviceUp = true)
    (hne : readEntries w.files (selectFiles inputs (completionSet w.outDoc)) ≠ []) :
    (mainRun w service ⟨none, some inputs, out⟩ model url template).calls =
      (runLoop (fun c => summarize_with_ollama service c model url template)
        (readEntries w.files
          (selectFiles inputs (completionSet w.outDoc)))).calls := by
  rw [mainRun_perFile_go service out model url template hconf hup hne]

theorem filter_replicate_pos {q : String → Bool} {p : String} (hq : q p = true) :
    ∀ n, List.filter q (List.replicate n p) = List.replicate n p := by
  intro n
  induction n with
  | zero => rfl
  | succ n ih =>
    rw [List.replicate_succ, List.filter_cons, if_pos hq, ih]

/-- C10: the completion set is computed once, before processing, and never
updated during the run, so an input path that occurs `n` times (and is not
yet complete) is summarized and appended once per occurrence: the run
processes `n` entries, sends the file's content to the client `n` times,
and appends `n` identical records. -/
theorem c10_fixed_completion_set (w : World) (service : String → ServiceOutcome)
    (p out model url template : String) (n : Nat) (c s : String)
    (hconf : w.confirmYes = true) (hup : w.serviceUp = true)
    (hnot : (completionSet w.outDoc).contains (basename p) = false)
    (hc : w.files p = some c) (hcne : c ≠ "")
    (hs : summarize_with_ollama service c model url template = some s)
    (hsne : s ≠ "") (hstem : pyStem (basename p) ≠ "") :
    (mainRun w service ⟨none, some (List.replicate n p), out⟩ model url
        template).processed = n ∧
      (mainRun w service ⟨none, some (List.replicate n p), out⟩ model url
        template).calls = List.replicate n c ∧
      (mainRun w service ⟨none, some (List.replicate n p), out⟩ model url
        template).doc =
        appendAll w.outDoc
          (List.replicate n ("[[" ++ pyStem (basename p) ++ "]]", s)) := by
  have hsel : selectFiles (List.replicate n p) (completionSet w.outDoc) =
      List.replicate n p := by
    rw [selectFiles]
    exact filter_replicate_pos (by rw [hnot]; rfl) n
  have hread : readEntries w.files (List.replicate n p) =
      List.replicate n ⟨none, some (pyStem (basename p)), c⟩ := by
    rw [readEntries_all w.files _
      (by intro q hq; rw [List.eq_of_mem_replicate hq, hc]; rfl)]
    rw [List.map_replicate]
    rw [show (w.files p).getD "" = c from by rw [hc]; rfl]
  cases n with
  | zero => exact ⟨rfl, rfl, rfl⟩
  | succ m =>
    have hne : readEntries w.files
        (selectFiles (List.replicate (m + 1) p) (completionSet w.outDoc)) ≠ [] := by
      rw [hsel, hread]
      simp
    have hloop := runLoop_all_success
      (fun c' => summarize_with_ollama service c' model url template)
      (List.replicate (m + 1) ⟨none, some (pyStem (basename p)), c⟩)
      (by
        intro e he
        rw [List.eq_of_mem_replicate he]
        refine ⟨hcne, ?_, ?_⟩
        · show (summarize_with_ollama service c model url template).isSome = true
          rw [hs]
          rfl
        · show (summarize_with_ollama service c model url template).getD "" ≠ ""
          rw [hs]
          simpa using hsne)
    have hhead : renderHeading (entryHeading
        (⟨none, some (pyStem (basename p)), c⟩ : JournalEntry)) =
        "[[" ++ pyStem (basename p) ++ "]]" := by
      rw [entryHeading]
      simp only [if_neg hstem]
      rfl
    have hgetd : ((fun c' => summarize_with_ollama service c' model url template)
        ((⟨none, some (pyStem (basename p)), c⟩ : JournalEntry).content)).getD "" =
        s := by
      show (summarize_with_ollama service c model url template).getD "" = s
      rw [hs]
      rfl
    refine ⟨?_, ?_, ?_⟩
    · rw [mainRun_perFile_processed service out model url template hconf hup hne,
        hsel, hread, hloop]
      show (List.replicate (m + 1)
        (⟨none, some (pyStem (basename p)), c⟩ : JournalEntry)).length = m + 1
      rw [List.length_replicate]
    · rw [mainRun_perFile_calls service out model url template hconf hup hne,
        hsel, hread, hloop]
      show List.map (fun e => e.content)
          (List.replicate (m + 1)
            (⟨none, some (pyStem (basename p)), c⟩ : JournalEntry)) =
        List.replicate (m + 1) c
      rw [List.map_replicate]
    · rw [mainRun_perFile_doc service out model url template hconf hup hne,
        hsel, hread, hloop]
      show appendAll w.outDoc
          (List.map
            (fun e => (renderHeading (entryHeading e),
              ((fun c' => summarize_with_ollama service c' model url template)
                e.content).getD ""))
            (List.replicate (m + 1)
              (⟨none, some (pyStem (basename p)), c⟩ : JournalEntry))) = _
      rw [List.map_replicate, hhead, hgetd]

/-- C10 witness: the path `a.md` supplied twice is summarized and appended
twice in one run. -/
theorem c10_witness :
    (exWorld.confirmYes = true ∧ exWorld.serviceUp = true ∧
        (completionSet exWorld.outDoc).contains (basename "a.md") = false ∧
        exWorld.files "a.md" = some "hello" ∧ ("hello" : String) ≠ "" ∧
        summarize_with_ollama exService "hello" "m" "u" "t" = some "A fine day." ∧
        ("A fine day." : String) ≠ "" ∧ pyStem (basename "a.md") ≠ "") ∧
      (mainRun exWorld exService ⟨none, some (List.replicate 2 "a.md"), "out.md"⟩
          "m" "u" "t").processed = 2 ∧
      (mainRun exWorld exService ⟨none, some (List.replicate 2 "a.md"), "out.md"⟩
          "m" "u" "t").calls = List.replicate 2 "hello" ∧
      (mainRun exWorld exService ⟨none, some (List.replicate 2 "a.md"), "out.md"⟩
          "m" "u" "t").doc =
        appendAll exWorld.outDoc
          (List.replicate 2 ("[[" ++ pyStem (basename "a.md") ++ "]]", "A fine day.")) := by
  refine ⟨⟨rfl, rfl, by decide, by decide, by decide, by decide, by decide,
    by decide⟩, ?_⟩
  exact c10_fixed_completion_set exWorld exService "a.md" "out.md" "m" "u" "t" 2
    "hello" "A fine day." rfl rfl (by decide) (by decide) (by decide) (by decide)
    (by decide) (by decide)

/-! ### Reasoning-tag removal lemmas (C7) -/

theorem isPrefixOf_cons_of_ne {a c : Char} (pat l : List Char) (h : ¬a = c) :
    ((a :: pat).isPrefixOf (c :: l)) = false := by
  simp only [List.isPrefixOf, Bool.and_eq_false_iff]
  left
  simpa using h

theorem dropThroughClose_exact (t : List Char) :
    dropThroughClose (("</think>").data ++ t) = some t := by
  have hshape : ("</think>").data ++ t =
      '<' :: (['/', 't', 'h', 'i', 'n', 'k', '>'] ++ t) := by simp
  rw [hshape, dropThroughClose]
  have hp : (("</think>").data.isPrefixOf
      ('<' :: (['/', 't', 'h', 'i', 'n', 'k', '>'] ++ t))) = true := by
    rw [← hshape]
    exact isPrefixOf_append_self _ _
  rw [hp, if_pos rfl]
  rw [show List.drop 8 ('<' :: (['/', 't', 'h', 'i', 'n', 'k', '>'] ++ t)) = t from by
    rw [← hshape]
    have hlen : (8 : Nat) = ("</think>").data.length := rfl
    rw [hlen, List.drop_left]]

theorem dropThroughClose_skip {x : List Char} (hx : '<' ∉ x) (t : List Char) :
    dropThroughClose (x ++ (("</think>").data ++ t)) = some t := by
  induction x with
  | nil =>
    rw [List.nil_append]
    exact dropThroughClose_exact t
  | cons c cs ih =>
    have hc : ¬('<' = c) := by
      intro he
      exact hx (by rw [← he] at *; exact List.mem_cons_self _ _)
    rw [List.cons_append, dropThroughClose]
    have hp : (("</think>").data.isPrefixOf
        (c :: (cs ++ (("</think>").data ++ t)))) = false := by
      have hd : ("</think>").data = '<' :: ['/', 't', 'h', 'i', 'n', 'k', '>'] := rfl
      rw [hd]
      exact isPrefixOf_cons_of_ne _ _ hc
    rw [hp]
    simp only [Bool.false_eq_true, if_false]
    exact ih (fun hm => hx (List.mem_cons_of_mem c hm))

theorem removeThinkFuel_no_open : ∀ (l : List Char), '<' ∉ l →
    ∀ f, removeThinkFuel f l = l := by
  intro l
  induction l with
  | nil => intro _ f; cases f <;> rfl
  | cons c cs ih =>
    intro hl f
    cases f with
    | zero => rfl
    | succ f =>
      have hc : ¬('<' = c) := by
        intro he
        exact hl (by rw [← he] at *; exact List.mem_cons_self _ _)
      rw [removeThinkFuel]
      have hp : (("<think>").data.isPrefixOf (c :: cs)) = false := by
        have hd : ("<think>").data = '<' :: ['t', 'h', 'i', 'n', 'k', '>'] := rfl
        rw [hd]
        exact isPrefixOf_cons_of_ne _ _ hc
      rw [hp]
      simp only [Bool.false_eq_true, if_false]
      rw [ih (fun hm => hl (List.mem_cons_of_mem c hm)) f]

theorem removeThinkFuel_span :
    ∀ (pre : List Char), '<' ∉ pre → ∀ {inner post : List Char}, '<' ∉ inner →
      '<' ∉ post → ∀ f, pre.length + 1 ≤ f →
      removeThinkFuel f
          (pre ++ (("<think>").data ++ (inner ++ (("</think>").data ++ post)))) =
        pre ++ post := by
  intro pre
  induction pre with
  | nil =>
    intro _ inner post hinner hpost f hf
    cases f with
    | zero => omega
    | succ f =>
      rw [List.nil_append, List.nil_append]
      have hshape : ("<think>").data ++ (inner ++ (("</think>").data ++ post)) =
          '<' :: (['t', 'h', 'i', 'n', 'k', '>'] ++
            (inner ++ (("</think>").data ++ post))) := by simp
      rw [hshape, removeThinkFuel]
      have hp : (("<think>").data.isPrefixOf
          ('<' :: (['t', 'h', 'i', 'n', 'k', '>'] ++
            (inner ++ (("</think>").data ++ post))))) = true := by
        rw [← hshape]
        exact isPrefixOf_append_self _ _
      rw [hp, if_pos rfl, ← hshape]
      have hlen : (7 : Nat) = ("<think>").data.length := rfl
      rw [hlen, List.drop_left, dropThroughClose_skip hinner post]
      exact removeThinkFuel_no_open post hpost f
  | cons c cs ih =>
    intro hpre inner post hinner hpost f hf
    cases f with
    | zero => omega
    | succ f =>
      have hc : ¬('<' = c) := by
        intro he
        exact hpre (by rw [← he] at *; exact List.mem_cons_self _ _)
      rw [List.cons_append, removeThinkFuel]
      have hp : (("<think>").data.isPrefixOf
          (c :: (cs ++ (("<think>").data ++
            (inner ++ (("</think>").data ++ post)))))) = false := by
        have hd : ("<think>").data = '<' :: ['t', 'h', 'i', 'n', 'k', '>'] := rfl
        rw [hd]
        exact isPrefixOf_cons_of_ne _ _ hc
      rw [hp]
      simp only [Bool.false_eq_true, if_false]
      rw [ih (fun hm => hpre (List.mem_cons_of_mem c hm)) hinner hpost f
        (by simpa using Nat.succ_le_succ_iff.mp hf)]
      rw [List.cons_append]

theorem removeThink_span {pre inner post : String} (hpre : '<' ∉ pre.data)
    (hinner : '<' ∉ inner.data) (hpost : '<' ∉ post.data) :
    removeThink (pre ++ "<think>" ++ inner ++ "</think>" ++ post) = pre ++ post := by
  have hdata : (pre ++ "<think>" ++ inner ++ "</think>" ++ post).data =
      pre.data ++ (("<think>").data ++ (inner.data ++ (("</think>").data ++ post.data))) := by
    simp [String.data_append]
  rw [removeThink, hdata]
  rw [removeThinkFuel_span pre.data hpre hinner hpost _
    (by
      simp only [List.length_append, List.length_cons, List.length_nil]
      omega)]
  show (⟨pre.data ++ post.data⟩ : String) = pre ++ post
  rw [← String.data_append]

/-! ### Strip-invariance lemmas (C7) -/

theorem stripLeft_length_le (l : List Char) :
    (stripLeftChars l).length ≤ l.length :=
  (List.dropWhile_suffix isPySpace).sublist.length_le

theorem stripRight_length_le (l : List Char) :
    (stripRightChars l).length ≤ l.length := by
  rw [stripRightChars, List.length_reverse]
  calc (l.reverse.dropWhile isPySpace).length ≤ l.reverse.length :=
        (List.dropWhile_suffix isPySpace).sublist.length_le
    _ = l.length := List.length_reverse l

theorem strip_parts_of_eq {l : List Char} (h : stripChars l = l) :
    stripLeftChars l = l ∧ stripRightChars l = l := by
  have hlen1 : (stripChars l).length ≤ (stripLeftChars l).length :=
    stripRight_length_le _
  have hlen2 : (stripLeftChars l).length ≤ l.length := stripLeft_length_le l
  rw [h] at hlen1
  have hleq : (stripLeftChars l).length = l.length := le_antisymm hlen2 hlen1
  have hleft : stripLeftChars l = l :=
    (List.dropWhile_suffix isPySpace).eq_of_length hleq
  refine ⟨hleft, ?_⟩
  rw [stripChars, hleft] at h
  exact h

theorem head_not_ws {l : List Char} (h : stripLeftChars l = l) :
    ∀ ch, l.head? = some ch → isPySpace ch = false := by
  intro ch hch
  cases l with
  | nil => cases hch
  | cons c t =>
    obtain rfl : c = ch := by simpa using hch
    by_contra hws
    have hws' : isPySpace c = true := by
      cases hb : isPySpace c with
      | false => exact absurd hb hws
      | true => rfl
    rw [stripLeftChars, List.dropWhile_cons, if_pos hws'] at h
    have := congrArg List.length h
    have hle : (t.dropWhile isPySpace).length ≤ t.length :=
      (List.dropWhile_suffix isPySpace).sublist.length_le
    simp only [List.length_cons] at this
    omega

theorem last_not_ws {l : List Char} (h : stripRightChars l = l) :
    ∀ ch, l.getLast? = some ch → isPySpace ch = false := by
  intro ch hch
  have hrev : stripLeftChars l.reverse = l.reverse := by
    have := congrArg List.reverse h
    rw [stripRightChars, List.reverse_reverse] at this
    exact this
  apply head_not_ws hrev
  rw [List.head?_reverse]
  exact hch

theorem stripChars_data_of_pyStrip {s : String} (h : pyStrip s = s) :
    stripChars s.data = s.data := by
  have := congrArg String.data h
  exact this

theorem stripChars_append_self {u v : List Char} (hu : stripChars u = u)
    (hv : stripChars v = v) : stripChars (u ++ v) = u ++ v := by
  obtain ⟨hul, hur⟩ := strip_parts_of_eq hu
  obtain ⟨hvl, hvr⟩ := strip_parts_of_eq hv
  apply stripChars_eq_self
  · intro ch hch
    cases u with
    | nil =>
      rw [List.nil_append] at hch
      exact head_not_ws hvl ch hch
    | cons c t =>
      rw [List.cons_append] at hch
      have : c = ch := by simpa using hch
      exact this ▸ head_not_ws hul c rfl
  · intro ch hch
    cases hv0 : v with
    | nil =>
      subst hv0
      rw [List.append_nil] at hch
      exact last_not_ws hur ch hch
    | cons c t =>
      rw [List.getLast?_append_of_ne_nil u (by rw [hv0]; simp)] at hch
      exact last_not_ws hvr ch hch

theorem thinkSpan_strip_inv {inner : List Char} :
    stripChars (("<think>").data ++ (inner ++ ("</think>").data)) =
      ("<think>").data ++ (inner ++ ("</think>").data) := by
  apply stripChars_eq_self
  · intro ch hch
    obtain rfl : '<' = ch := by simpa using hch
    rfl
  · intro ch hch
    rw [List.getLast?_append_of_ne_nil _ (by simp),
      List.getLast?_append_of_ne_nil _ (by simp)] at hch
    obtain rfl : '>' = ch := by simpa using hch
    rfl

/-- C7: reasoning-tag stripping.  On a well-formed response whose generated
text is whitespace padding around a `<think>…</think>` span embedded in
otherwise tag-free text, the client strips the leading/trailing whitespace
and removes the span with its contents: the result is exactly the
surrounding text.  The spec's example is the witness below. -/
theorem c7_tag_stripping (service : String → ServiceOutcome)
    (text model url template : String) (pad1 pad2 pre inner post : String)
    (hpad1 : ∀ ch ∈ pad1.data, isPySpace ch = true)
    (hpad2 : ∀ ch ∈ pad2.data, isPySpace ch = true)
    (hpre : '<' ∉ pre.data) (hpres : pyStrip pre = pre)
    (hinner : '<' ∉ inner.data)
    (hpost : '<' ∉ post.data) (hposts : pyStrip post = post)
    (hresp : service (buildPrompt template text) =
      .ok (some (pad1 ++ (pre ++ "<think>" ++ inner ++ "</think>" ++ post) ++ pad2))) :
    summarize_with_ollama service text model url template =
      some (pre ++ post) := by
  rw [summarize_with_ollama, hresp]
  show some (cleanSummary
    (pad1 ++ (pre ++ "<think>" ++ inner ++ "</think>" ++ post) ++ pad2)) =
    some (pre ++ post)
  congr 1
  rw [cleanSummary]
  have hyinv : stripChars (pre ++ "<think>" ++ inner ++ "</think>" ++ post).data =
      (pre ++ "<think>" ++ inner ++ "</think>" ++ post).data := by
    have hshape : (pre ++ "<think>" ++ inner ++ "</think>" ++ post).data =
        pre.data ++ ((("<think>").data ++ (inner.data ++ ("</think>").data)) ++
          post.data) := by
      simp [String.data_append]
    rw [hshape]
    exact stripChars_append_self (stripChars_data_of_pyStrip hpres)
      (stripChars_append_self thinkSpan_strip_inv
        (stripChars_data_of_pyStrip hposts))
  have hy : pyStrip
      (pad1 ++ (pre ++ "<think>" ++ inner ++ "</think>" ++ post) ++ pad2) =
      pre ++ "<think>" ++ inner ++ "</think>" ++ post := by
    show (⟨stripChars
      (pad1 ++ (pre ++ "<think>" ++ inner ++ "</think>" ++ post) ++ pad2).data⟩ :
        String) = _
    rw [String.data_append, String.data_append]
    rw [stripChars_ws_pad hpad1 hpad2, hyinv]
  rw [hy, removeThink_span hpre hinner hpost]
  show (⟨stripChars (pre ++ post).data⟩ : String) = pre ++ post
  rw [String.data_append,
    stripChars_append_self (stripChars_data_of_pyStrip hpres)
      (stripChars_data_of_pyStrip hposts), ← String.data_append]

/-- C7 witness: the spec's example, with whitespace padding: the response
`" <think>internal</think>Final answer.\n"` cleans to `"Final answer."`. -/
theorem c7_witness :
    ((∀ ch ∈ (" " : String).data, isPySpace ch = true) ∧
        (∀ ch ∈ ("\n" : String).data, isPySpace ch = true) ∧
        '<' ∉ ("" : String).data ∧ pyStrip "" = "" ∧
        '<' ∉ ("internal" : String).data ∧
        '<' ∉ ("Final answer." : String).data ∧
        pyStrip "Final answer." = "Final answer.") ∧
      summarize_with_ollama
          (fun _ => ServiceOutcome.ok
            (some (" " ++ ("" ++ "<think>" ++ "internal" ++ "</think>" ++
              "Final answer.") ++ "\n")))
          "entry" "m" "u" "t" =
        some "Final answer." := by
  refine ⟨⟨by decide, by decide, by decide, by decide, by decide, by decide,
    by decide⟩, ?_⟩
  have h := c7_tag_stripping
    (fun _ => ServiceOutcome.ok
      (some (" " ++ ("" ++ "<think>" ++ "internal" ++ "</think>" ++
        "Final answer.") ++ "\n")))
    "entry" "m" "u" "t" " " "\n" "" "internal" "Final answer."
    (by decide) (by decide) (by decide) (by decide) (by decide) (by decide)
    (by decide) rfl
  exact h.trans (by decide)

end SJ
